import Mathlib

set_option maxRecDepth 100000

/-!
Verification development for the rakoshare control-session, metainfo and
file-store code.  Go strings are modelled as lists of bytes (`List Nat`,
each entry < 256 for genuine byte strings), Go slices as lists, Go maps as
association lists, and the filesystem touched by the file store as an
association list from path to file contents.  External standard-library
functions used by the code (`strings.Split`, `strconv.Atoi`, `crypto/sha1`,
`path.Clean`, `sort.Search`, the bencode codec) are modelled from their
documented behaviour.
-/

/-- Bytes of a Lean string literal (ASCII in all uses below), for writing
concrete Go strings. -/
def gs (s : String) : List Nat := s.data.map Char.toNat

/-- Models `strings.Split(s, sep)` for a one-byte separator `sep`, which is
the only form the code uses (separators "-" and "2"). -/
def goSplit1 (sep : Nat) : List Nat → List (List Nat)
  | [] => [[]]
  | c :: rest =>
    match goSplit1 sep rest with
    | [] => [[]]
    | h :: t => if c = sep then [] :: h :: t else (c :: h) :: t

/-- Decimal digits of `n`, most significant first, as ASCII bytes.
The fuel argument only drives structural recursion; it is sufficient
whenever `n < 10 ^ fuel`-ish, and `natDigits` below always passes enough. -/
def natDigitsAux : Nat → Nat → List Nat
  | 0, _ => []
  | fuel + 1, n => if n < 10 then [48 + n] else natDigitsAux fuel (n / 10) ++ [48 + n % 10]

/-- Models `strconv.Itoa n` for `n ≥ 0`: canonical decimal ASCII. -/
def natDigits (n : Nat) : List Nat := natDigitsAux (n + 1) n

/-- Models `strconv.Itoa` on `int` (sign included). -/
def intToChars (i : Int) : List Nat :=
  if i < 0 then 45 :: natDigits i.natAbs else natDigits i.toNat

/-- Value of a list of ASCII decimal digits, most significant first. -/
def digitsVal (l : List Nat) : Nat := l.foldl (fun acc d => acc * 10 + (d - 48)) 0

/-- Byte is an ASCII decimal digit. -/
def isDigitB (b : Nat) : Bool := 48 ≤ b && b ≤ 57

/-- Models `strconv.Atoi`: optional sign, then at least one decimal digit
(the 64-bit range check is immaterial for the counters handled here, so the
model parses unboundedly). `none` models a non-nil error. -/
def goAtoi (s : List Nat) : Option Int :=
  match s with
  | [] => none
  | c :: rest =>
    if c = 45 then
      if rest ≠ [] ∧ rest.all isDigitB then some (-(digitsVal rest : Int)) else none
    else if c = 43 then
      if rest ≠ [] ∧ rest.all isDigitB then some (digitsVal rest : Int) else none
    else if (c :: rest).all isDigitB then some (digitsVal (c :: rest) : Int) else none

/-- Lowercase hex digit for a value < 16 (as produced by `fmt %x`). -/
def hexDigit (n : Nat) : Nat := if n < 10 then 48 + n else 87 + n

/-- Models `fmt.Sprintf("%x", …)` over a byte slice: two lowercase hex
digits per byte. -/
def hexOfBytes : List Nat → List Nat
  | [] => []
  | b :: rest => hexDigit (b / 16) :: hexDigit (b % 16) :: hexOfBytes rest

/-! ### SHA-1 (models Go `crypto/sha1.Sum`), FIPS 180 over byte lists -/

/-- 32-bit left rotation on a `Nat` already reduced mod 2^32. -/
def rotl32 (x n : Nat) : Nat := (x * 2 ^ n + x / 2 ^ (32 - n)) % 2 ^ 32

/-- Big-endian 32-bit word from four bytes. -/
def word32 (a b c d : Nat) : Nat := ((a * 256 + b) * 256 + c) * 256 + d

/-- Split a byte list into big-endian 32-bit words (length a multiple of 4
in all uses). -/
def toWords : List Nat → List Nat
  | a :: b :: c :: d :: rest => word32 a b c d :: toWords rest
  | _ => []

/-- SHA-1 message padding: append 0x80, zero bytes to 56 mod 64, then the
original length in bits as 8 big-endian bytes. -/
def sha1Pad (msg : List Nat) : List Nat :=
  let bitLen := msg.length * 8
  let padZeros := (55 + 64 - msg.length % 64) % 64
  msg ++ [128] ++ List.replicate padZeros 0 ++
    [bitLen / 2 ^ 56 % 256, bitLen / 2 ^ 48 % 256, bitLen / 2 ^ 40 % 256,
     bitLen / 2 ^ 32 % 256, bitLen / 2 ^ 24 % 256, bitLen / 2 ^ 16 % 256,
     bitLen / 2 ^ 8 % 256, bitLen % 256]

/-- Extend 16 words to the 80-word SHA-1 message schedule. -/
def sha1Schedule (w16 : List Nat) : List Nat :=
  (List.range 64).foldl
    (fun w i =>
      w ++ [rotl32 (Nat.xor (Nat.xor (w.getD (i + 13) 0) (w.getD (i + 8) 0))
                    (Nat.xor (w.getD (i + 2) 0) (w.getD i 0))) 1])
    w16

/-- One SHA-1 round. -/
def sha1Round (st : Nat × Nat × Nat × Nat × Nat) (i wi : Nat) : Nat × Nat × Nat × Nat × Nat :=
  let (a, b, c, d, e) := st
  let f :=
    if i < 20 then Nat.xor (Nat.land b c) (Nat.land ((2 ^ 32 - 1) - b) d)
    else if i < 40 then Nat.xor (Nat.xor b c) d
    else if i < 60 then Nat.lor (Nat.lor (Nat.land b c) (Nat.land b d)) (Nat.land c d)
    else Nat.xor (Nat.xor b c) d
  let k :=
    if i < 20 then 0x5A827999
    else if i < 40 then 0x6ED9EBA1
    else if i < 60 then 0x8F1BBCDC
    else 0xCA62C1D6
  let tmp := (rotl32 a 5 + f + e + k + wi) % 2 ^ 32
  (tmp, a, rotl32 b 30, c, d)

/-- Process one 64-byte chunk. -/
def sha1Chunk (h : Nat × Nat × Nat × Nat × Nat) (chunk : List Nat) : Nat × Nat × Nat × Nat × Nat :=
  let ws := sha1Schedule (toWords chunk)
  let (a, b, c, d, e) :=
    (List.range 80).foldl (fun st i => sha1Round st i (ws.getD i 0)) h
  let (h0, h1, h2, h3, h4) := h
  ((h0 + a) % 2 ^ 32, (h1 + b) % 2 ^ 32, (h2 + c) % 2 ^ 32, (h3 + d) % 2 ^ 32, (h4 + e) % 2 ^ 32)

/-- Split into 64-byte chunks (input length is a multiple of 64). -/
def chunks64 (fuel : Nat) (l : List Nat) : List (List Nat) :=
  match fuel, l with
  | _, [] => []
  | 0, _ => []
  | fuel + 1, l => l.take 64 :: chunks64 fuel (l.drop 64)

/-- Big-endian bytes of a 32-bit word. -/
def wordBytes (w : Nat) : List Nat :=
  [w / 2 ^ 24 % 256, w / 2 ^ 16 % 256, w / 2 ^ 8 % 256, w % 256]

/-- Models `crypto/sha1.Sum`: the 20-byte SHA-1 digest of a byte list. -/
def sha1 (msg : List Nat) : List Nat :=
  let padded := sha1Pad msg
  let (h0, h1, h2, h3, h4) :=
    (chunks64 (padded.length + 1) padded).foldl sha1Chunk
      (0x67452301, 0xEFCDAB89, 0x98BADCFE, 0x10325476, 0xC3D2E1F0)
  wordBytes h0 ++ wordBytes h1 ++ wordBytes h2 ++ wordBytes h3 ++ wordBytes h4

/-! ### Control session: revision handling (part_000) -/

/-- The fields of `ControlSession` that `SetCurrent` reads and writes. -/
structure CtrlState where
  currentIH : List Nat
  rev : List Nat
deriving DecidableEq, Repr

/-- Models `ControlSession.SetCurrent` (part_000 lines 509-537) restricted
to its in-memory effect on `currentIH` and `rev`: split `rev` on "-"
(falling back to counter 0 and empty hash if that does not give two
parts), increment the counter, and append the lowercase hex SHA-1 of the
new info-hash concatenated with the old hash part.  The persisted file and
the broadcast carry the same values and are not modelled. -/
def setCurrent (st : CtrlState) (ih : List Nat) : CtrlState :=
  let parts0 := goSplit1 45 st.rev
  let parts := if parts0.length ≠ 2 then [gs "0", []] else parts0
  let counter : Int := (goAtoi (parts.getD 0 [])).getD 0
  let newCounter := intToChars (counter + 1)
  { currentIH := ih
    rev := newCounter ++ [45] ++ hexOfBytes (sha1 (ih ++ parts.getD 1 [])) }

/-- Models the revision-restoring logic of `NewControlSession` (part_000
lines 82-90): keep the persisted revision only when splitting it on the
literal character "2" yields two parts whose first is an integer;
otherwise start from "0-". -/
def initRev (restored : List Nat) : List Nat :=
  if restored = [] then gs "0-"
  else
    let parts := goSplit1 50 restored
    if parts.length = 2 ∧ (goAtoi (parts.getD 0 [])).isSome then restored
    else gs "0-"

/-- Modelled from the spec: the intended restore check, "initializes
revision `rev` to `"0-"` unless the restored revision parses as
`"<int>-<hex>"`" — split on "-", two parts, integer first part (the hash
part is not validated, mirroring the structure of the code's check). -/
def initRevSpec (restored : List Nat) : List Nat :=
  if restored = [] then gs "0-"
  else
    let parts := goSplit1 45 restored
    if parts.length = 2 ∧ (goAtoi (parts.getD 0 [])).isSome then restored
    else gs "0-"

/-! ### Control session: peer admission (part_000 lines 342-375) -/

/-- The parts of an accepted `btConn` that `AddPeer` consults: the remote
address string and the remote peer id. -/
structure BtConnM where
  addr : List Nat
  id : List Nat
deriving DecidableEq, Repr

/-- The peer table `cs.peers`, a Go map from address to peer state;
modelled as an association list with distinct keys, keeping the peer id of
each entry. -/
def PeerTable : Type := List (List Nat × List Nat)

/-- Go map lookup. -/
def ptLookup (t : PeerTable) (addr : List Nat) : Option (List Nat) :=
  match t.find? (fun p => p.1 = addr) with
  | some p => some p.2
  | none => none

/-- Go map store `m[k] = v`: replace the entry at the key if present,
otherwise append. -/
def ptInsert (t : PeerTable) (addr id : List Nat) : PeerTable :=
  match t with
  | [] => [(addr, id)]
  | p :: rest => if p.1 = addr then (addr, id) :: rest else p :: ptInsert rest addr id

/-- Models `ControlSession.AddPeer`: drop the connection if some peer
already has the same id, or if the table already holds `maxNumPeers`
peers; otherwise store the new peer under its remote address.
`maxNumPeers` models the constant `MAX_NUM_PEERS`, whose defining file is
outside the sources (its value is irrelevant to the claims). -/
def addPeer (maxNumPeers : Nat) (t : PeerTable) (c : BtConnM) : PeerTable :=
  if t.any (fun p => p.2 = c.id) then t
  else if maxNumPeers ≤ t.length then t
  else ptInsert t c.addr c.id

/-- The peer-table invariants claimed for `AddPeer`: bounded size, one
entry per address (the Go-map representation invariant), and no two
entries with the same peer id. -/
def PeerInv (maxNumPeers : Nat) (t : PeerTable) : Prop :=
  t.length ≤ maxNumPeers ∧ (t.map Prod.fst).Nodup ∧ (t.map Prod.snd).Nodup

/-! ### Go `path` package model (byte-list paths, components split on "/") -/

/-- Path components: split on the byte of "/". -/
def splitSlash (p : List Nat) : List (List Nat) := goSplit1 47 p

/-- One step of the lexical cleaning algorithm of `path.Clean`: drop empty
and "." components; ".." pops the previous component when one is
available, disappears at the root of a rooted path, and is kept at the
front of an unrooted path. -/
def cleanStep (rooted : Bool) (stack : List (List Nat)) (c : List Nat) : List (List Nat) :=
  if c = [] ∨ c = [46] then stack
  else if c = [46, 46] then
    if stack ≠ [] ∧ stack.getLast? ≠ some [46, 46] then stack.dropLast
    else if rooted then stack
    else stack ++ [c]
  else stack ++ [c]

/-- Cleaned component stack of a component list. -/
def cleanComps (rooted : Bool) (comps : List (List Nat)) : List (List Nat) :=
  comps.foldl (cleanStep rooted) []

/-- Models `path.Clean` by its documented lexical rules: collapse multiple
slashes, drop "." components, resolve ".." against preceding components,
drop ".." at the root of a rooted path; empty result becomes "." (or "/"
when rooted); no trailing slash. -/
def goClean (p : List Nat) : List Nat :=
  let rooted := p.headD 0 = 47
  let stack := cleanComps rooted (splitSlash p)
  if rooted then 47 :: (List.intersperse [47] stack).flatten
  else if stack = [] then [46]
  else (List.intersperse [47] stack).flatten

/-- Models `path.Join(elem...)`: from the first non-empty element, join the
remaining elements with "/" and clean; all-empty gives "". -/
def goPathJoin (elems : List (List Nat)) : List Nat :=
  match elems.dropWhile (fun e => e = []) with
  | [] => []
  | rest => goClean (List.intersperse [47] rest).flatten

/-- Models `path.Ext`: the suffix of the final slash-separated element
starting at its final dot, empty if there is no dot. -/
def goExt (p : List Nat) : List Nat :=
  let revTail := p.reverse.takeWhile (fun b => b ≠ 47)
  match revTail.findIdx? (fun b => b = 46) with
  | some i => (p.reverse.take (i + 1)).reverse
  | none => []

/-- Models `strings.Replace(s, pat, "", 1)`: delete the first occurrence
of `pat` (for empty `pat` Go inserts the empty string, leaving `s`). -/
def delFirst (s pat : List Nat) : List Nat :=
  match s with
  | [] => []
  | c :: rest =>
    if pat ≠ [] ∧ s.take pat.length = pat then s.drop pat.length
    else c :: delFirst rest pat

/-- `strings.HasSuffix(name, ".part")`. -/
def isPartName (name : List Nat) : Bool :=
  5 ≤ name.length && name.drop (name.length - 5) = gs ".part"

/-! ### File store (part_001) -/

/-- A `fileEntry` together with the bytes of its backing file (the backing
file is reopened per positional I/O call, so its contents are the entry's
whole mutable state). -/
structure FileEntryM where
  length : Nat
  name : List Nat
  contents : List Nat
deriving DecidableEq, Repr

instance : Inhabited FileEntryM := ⟨⟨0, [], []⟩⟩

/-- The flat filesystem the store construction touches: an association
list from path to file contents (directories are implicit). -/
def FsMap : Type := List (List Nat × List Nat)

def fsLookup (m : FsMap) (p : List Nat) : Option (List Nat) :=
  match m.find? (fun e => e.1 = p) with
  | some e => some e.2
  | none => none

def fsRemove (m : FsMap) (p : List Nat) : FsMap :=
  m.filter (fun e => e.1 ≠ p)

/-- `os.Create` semantics on the map: truncate an existing file or create
a fresh one. -/
def fsInsert (m : FsMap) (p : List Nat) (c : List Nat) : FsMap :=
  (p, c) :: fsRemove m p

/-- Models `fileEntry.open` (part_001 lines 36-86): remove any existing
`name.part`; if the final file is missing or has the wrong size, create a
fresh `.part` file (base name capped at 60 bytes with an ellipsis) and
truncate it to the declared length, which leaves it all zero. -/
def feOpen (m : FsMap) (name : List Nat) (length : Nat) : FsMap × FileEntryM :=
  let partname := name ++ gs ".part"
  let m1 := if (fsLookup m partname).isSome then fsRemove m partname else m
  let needToRetrieve :=
    match fsLookup m1 name with
    | none => true
    | some c => c.length ≠ length
  if needToRetrieve then
    let rawname := delFirst name (goExt name)
    let rawname2 := if 60 < rawname.length then rawname.take 60 ++ gs "[...]" else rawname
    let partname2 := rawname2 ++ goExt name ++ gs ".part"
    (fsInsert m1 partname2 (List.replicate length 0),
     ⟨length, partname2, List.replicate length 0⟩)
  else
    (m1, ⟨length, name, (fsLookup m1 name).getD []⟩)

/-- The decoded `files` entry of an `InfoDict` used by `NewFileStore`. -/
structure FileDictM where
  length : Nat
  path : List (List Nat)
deriving DecidableEq, Repr

/-- The fields of `InfoDict` consulted by `NewFileStore`. -/
structure InfoDictM where
  pieceLength : Nat := 0
  pieces : List Nat := []
  private_ : Nat := 0
  name : List Nat := []
  length : Nat := 0
  md5sum : List Nat := []
  files : List FileDictM := []
deriving DecidableEq, Repr

/-- The in-memory `fileStore`: parallel arrays of cumulative offsets and
file entries. -/
structure FileStoreM where
  offsets : List Nat
  files : List FileEntryM
deriving DecidableEq, Repr

/-- The source-path cleaning of `NewFileStore`:
`path.Clean("/" + path.Join(src.Path...))[1:]`. -/
def cleanSrcPath (srcPath : List (List Nat)) : List Nat :=
  (goClean (47 :: goPathJoin srcPath)).drop 1

/-- The backing path `NewFileStore` computes for one file:
`path.Join(storePath, cleanSrcPath)`. -/
def fullPathFor (storePath : List Nat) (srcPath : List (List Nat)) : List Nat :=
  goPathJoin [storePath, cleanSrcPath srcPath]

/-- Models `NewFileStore` (part_001 lines 170-199): synthesise a
single-file entry from `name`/`length` when `files` is empty, then open
each backing file at `Join(storePath, cleaned source path)` and record
cumulative offsets and the total size.  Directory creation and the error
paths of `ensureDirectory`/`open` (pure OS failures) are not modelled. -/
def newFileStore (info : InfoDictM) (storePath : List Nat) (m : FsMap) :
    FileStoreM × Nat × FsMap :=
  let files :=
    if info.files.length = 0 then [FileDictM.mk info.length [info.name]] else info.files
  let step := fun (acc : FileStoreM × Nat × FsMap) (src : FileDictM) =>
    let (fs, totalSize, m) := acc
    let fullPath := fullPathFor storePath src.path
    let (m', fe) := feOpen m fullPath src.length
    (⟨fs.offsets ++ [totalSize], fs.files ++ [fe]⟩, totalSize + src.length, m')
  files.foldl step (⟨[], []⟩, 0, m)

/-- Models `sort.Search(n, f)` by its documented contract: the smallest
index in `[0, n)` at which `f` is true (`f` is monotone in every use
here), or `n` when there is none.  The fuel counts the candidates left. -/
def goSearchAux (f : Nat → Bool) : Nat → Nat → Nat
  | 0, j => j
  | rem + 1, j => if f j then j else goSearchAux f rem (j + 1)

def goSearch (n : Nat) (f : Nat → Bool) : Nat := goSearchAux f n 0

/-- Models `fileStore.find` (part_001 lines 201-208). -/
def fsFind (fs : FileStoreM) (off : Nat) : Nat :=
  goSearch fs.offsets.length
    (fun i => if fs.offsets.length - 1 ≤ i then true else off ≤ fs.offsets.getD (i + 1) 0)

/-- Models `os.File.ReadAt` on an entry's backing file: the bytes at
`[off, off+plen)`, how many were available, and whether the read was
complete (an incomplete read is an error in Go). -/
def feReadAt (fe : FileEntryM) (plen off : Nat) : List Nat × Nat × Bool :=
  let bytes := (fe.contents.drop off).take plen
  (bytes, bytes.length, off + plen ≤ fe.contents.length)

/-- Models `os.File.WriteAt` on an entry's backing file: overwrite
`[off, off+p.length)`, zero-extending if the write starts past the end. -/
def feWriteAt (fe : FileEntryM) (p : List Nat) (off : Nat) : FileEntryM :=
  { fe with
    contents := fe.contents.take off ++ List.replicate (off - fe.contents.length) 0 ++
      p ++ fe.contents.drop (off + p.length) }

/-- The loop of `fileStore.ReadAt` (part_001 lines 210-238), walking the
`files`/`offsets` arrays from the starting index as a paired suffix: read
from each entry that still overlaps the requested range, then zero-fill
whatever extends past the end of the store.  Returns the bytes placed in
the caller's buffer, the byte count `n`, and `err == nil`. -/
def fsReadLoop : List FileEntryM → List Nat → Nat → Nat → List Nat × Nat × Bool
  | _, [], plen, _ => (List.replicate plen 0, 0, true)
  | files, foff :: offs, plen, off =>
    if plen = 0 then ([], 0, true)
    else
      let entry := files.headD default
      let itemOffset := off - foff
      if itemOffset < entry.length then
        let chunk := min plen (entry.length - itemOffset)
        let r := feReadAt entry chunk itemOffset
        if r.2.2 then
          let rest := fsReadLoop files.tail offs (plen - r.2.1) (off + r.2.1)
          (r.1 ++ rest.1, r.2.1 + rest.2.1, rest.2.2)
        else (r.1, r.2.1, false)
      else fsReadLoop files.tail offs plen off

/-- Models `fileStore.ReadAt` for a buffer of length `plen`. -/
def fsReadAt (fs : FileStoreM) (plen off : Nat) : List Nat × Nat × Bool :=
  let index := fsFind fs off
  fsReadLoop (fs.files.drop index) (fs.offsets.drop index) plen off

/-- The check `fileStore.WriteAt` runs on whatever extends past the end of
the store: scan for a non-zero byte; error there, otherwise count the
remainder as written. -/
def zeroCheck (p : List Nat) : Nat × Bool :=
  match p.findIdx? (fun b => b ≠ 0) with
  | some i => (i, false)
  | none => (p.length, true)

/-- The loop of `fileStore.WriteAt` (part_001 lines 240-274), walking the
arrays from the starting index as a paired suffix; the remainder past the
end of the store must be all zero. -/
def fsWriteLoop : List FileEntryM → List Nat → List Nat → Nat → List FileEntryM × Nat × Bool
  | files, [], p, _ => (files, (zeroCheck p).1, (zeroCheck p).2)
  | files, foff :: offs, p, off =>
    if p.length = 0 then (files, 0, true)
    else
      let entry := files.headD default
      let itemOffset := off - foff
      if itemOffset < entry.length then
        let chunk := min p.length (entry.length - itemOffset)
        let entry' := feWriteAt entry (p.take chunk) itemOffset
        let rest := fsWriteLoop files.tail offs (p.drop chunk) (off + chunk)
        (entry' :: rest.1, chunk + rest.2.1, rest.2.2)
      else
        let rest := fsWriteLoop files.tail offs p off
        (files.headD default :: rest.1, rest.2.1, rest.2.2)

/-- Models `fileStore.WriteAt` as a state transformer together with the
returned `(n, err == nil)`. -/
def fsWriteAt (fs : FileStoreM) (p : List Nat) (off : Nat) : FileStoreM × Nat × Bool :=
  let index := fsFind fs off
  let r := fsWriteLoop (fs.files.drop index) (fs.offsets.drop index) p off
  (⟨fs.offsets, fs.files.take index ++ r.1⟩, r.2.1, r.2.2)

/-- Models `fileEntry.SetPart` (part_001 lines 92-108): already-staging
entries are untouched; otherwise the backing file is copied to
`name.part` and truncated to the declared length (zero-extending a short
file, as `os.Truncate` does). -/
def feSetPart (fe : FileEntryM) : FileEntryM :=
  if isPartName fe.name then fe
  else
    ⟨fe.length, fe.name ++ gs ".part",
     fe.contents.take fe.length ++ List.replicate (fe.length - fe.contents.length) 0⟩

/-- Models `fileStore.SetBad` (part_001 lines 276-283): stage every entry
from `find(from)` to the end of the store. -/
def fsSetBad (fs : FileStoreM) (fromOff : Nat) : FileStoreM :=
  let index := fsFind fs fromOff
  ⟨fs.offsets, fs.files.take index ++ (fs.files.drop index).map feSetPart⟩

/-- The store size reported by `NewFileStore`: the sum of the declared
file lengths. -/
def storeTotal (fs : FileStoreM) : Nat := (fs.files.map FileEntryM.length).sum

/-- Concatenation of the backing files' bytes: the store's logical byte
range. -/
def flatBytes (files : List FileEntryM) : List Nat :=
  (files.map FileEntryM.contents).flatten

/-- Well-formedness of a `(files, offsets)` suffix whose first entry
starts at logical offset `base`: offsets are the cumulative sums of the
declared lengths and each backing file has exactly its declared size.
`NewFileStore` establishes this shape. -/
inductive WfSuffix : List FileEntryM → List Nat → Nat → Prop
  | nil (base : Nat) : WfSuffix [] [] base
  | cons (fe : FileEntryM) (files : List FileEntryM) (offs : List Nat) (base : Nat)
      (hlen : fe.contents.length = fe.length)
      (hrest : WfSuffix files offs (base + fe.length)) :
      WfSuffix (fe :: files) (base :: offs) base

/-- Well-formed store. -/
def WfStore (fs : FileStoreM) : Prop := WfSuffix fs.files fs.offsets 0

/-! ### Bencode codec model and metainfo parsing (metainfo.go) -/

/-- Bencode values. -/
inductive Benc where
  | int : Int → Benc
  | str : List Nat → Benc
  | list : List Benc → Benc
  | dict : List (List Nat × Benc) → Benc

/-- Parser modes: a single bencode value, the elements of a list up to
the closing "e", or the key-value pairs of a dictionary up to the closing
"e" (keys must be strings). -/
inductive BMode where
  | value
  | elems
  | pairs
deriving DecidableEq, Repr

/-- Models the bencode decoder (`github.com/zeebo/bencode`): parse one
value (or the remaining items of an open list or dictionary) from the
front of the input.  The fuel argument only drives structural recursion;
it decreases on every call while at least every second call along a call
chain consumes a byte, so `2 * input length + 4` is always enough. -/
def parseBencAux : Nat → BMode → List Nat → Option (Benc × List Nat)
  | 0, _, _ => none
  | fuel + 1, .value, l =>
    match l with
    | [] => none
    | c :: rest =>
      if c = 105 then
        match rest with
        | 45 :: rest' =>
          let digits := rest'.takeWhile isDigitB
          match digits, rest'.dropWhile isDigitB with
          | [], _ => none
          | _, 101 :: restE => some (.int (-(digitsVal digits : Int)), restE)
          | _, _ => none
        | _ =>
          let digits := rest.takeWhile isDigitB
          match digits, rest.dropWhile isDigitB with
          | [], _ => none
          | _, 101 :: restE => some (.int (digitsVal digits : Int), restE)
          | _, _ => none
      else if c = 108 then parseBencAux fuel .elems rest
      else if c = 100 then parseBencAux fuel .pairs rest
      else if isDigitB c then
        let digits := l.takeWhile isDigitB
        match l.dropWhile isDigitB with
        | 58 :: rest' =>
          let n := digitsVal digits
          if n ≤ rest'.length then some (.str (rest'.take n), rest'.drop n) else none
        | _ => none
      else none
  | fuel + 1, .elems, l =>
    match l with
    | 101 :: rest => some (.list [], rest)
    | l =>
      match parseBencAux fuel .value l with
      | none => none
      | some (v, l') =>
        match parseBencAux fuel .elems l' with
        | some (.list vs, lRest) => some (.list (v :: vs), lRest)
        | _ => none
  | fuel + 1, .pairs, l =>
    match l with
    | 101 :: rest => some (.dict [], rest)
    | l =>
      match parseBencAux fuel .value l with
      | some (.str k, l') =>
        match parseBencAux fuel .value l' with
        | none => none
        | some (v, lv) =>
          match parseBencAux fuel .pairs lv with
          | some (.dict ps, lRest) => some (.dict ((k, v) :: ps), lRest)
          | _ => none
      | _ => none

/-- Parse one bencode value from the input. -/
def parseBenc (l : List Nat) : Option (Benc × List Nat) :=
  parseBencAux (2 * l.length + 4) .value l

mutual

/-- Bencode encoding of a value (dictionary entries in the stored order;
the encoders below build them already sorted, as the codec does). -/
def encodeBenc : Benc → List Nat
  | .int i => 105 :: intToChars i ++ [101]
  | .str s => natDigits s.length ++ [58] ++ s
  | .list vs => 108 :: encodeBencElems vs ++ [101]
  | .dict ps => 100 :: encodeBencPairs ps ++ [101]

/-- Encoded elements of a bencode list. -/
def encodeBencElems : List Benc → List Nat
  | [] => []
  | v :: vs => encodeBenc v ++ encodeBencElems vs

/-- Encoded pairs of a bencode dictionary (the key is encoded as a
bencode string). -/
def encodeBencPairs : List (List Nat × Benc) → List Nat
  | [] => []
  | p :: ps => natDigits p.1.length ++ [58] ++ p.1 ++ encodeBenc p.2 ++ encodeBencPairs ps

end

/-- The Go `FileDict` struct as decoded from bencode (int64 fields kept
as unbounded integers). -/
structure FileDictB where
  length : Int := 0
  path : List (List Nat) := []
  md5sum : List Nat := []
deriving DecidableEq, Repr

/-- The Go `InfoDict` struct as decoded from bencode. -/
structure InfoDictB where
  pieceLength : Int := 0
  pieces : List Nat := []
  private_ : Int := 0
  name : List Nat := []
  length : Int := 0
  md5sum : List Nat := []
  files : List FileDictB := []
deriving DecidableEq, Repr

/-- The fields of the Go `MetaInfo` struct relevant here (`Info` is a
pointer, hence optional; `InfoHash` is filled in after decoding). -/
structure MetaInfoB where
  info : Option InfoDictB := none
  announce : List Nat := []
  infoHash : List Nat := []
deriving DecidableEq, Repr

/-- Dictionary lookup by key. -/
def dGet (d : List (List Nat × Benc)) (k : List Nat) : Option Benc :=
  match d.find? (fun p => p.1 = k) with
  | some p => some p.2
  | none => none

/-- Struct-decoding of an optional string field: absent keys leave the
zero value, a present key of the wrong bencode type is an error. -/
def optStr (d : List (List Nat × Benc)) (k : List Nat) : Option (List Nat) :=
  match dGet d k with
  | none => some []
  | some (.str s) => some s
  | some _ => none

/-- Struct-decoding of an optional integer field. -/
def optInt (d : List (List Nat × Benc)) (k : List Nat) : Option Int :=
  match dGet d k with
  | none => some 0
  | some (.int i) => some i
  | some _ => none

/-- Decode one element of the `files` list. -/
def decodeFileDict : Benc → Option FileDictB
  | .dict d => do
    let length ← optInt d (gs "length")
    let path ←
      match dGet d (gs "path") with
      | none => some []
      | some (.list l) => l.mapM (fun v => match v with | .str s => some s | _ => none)
      | some _ => none
    let md5sum ← optStr d (gs "md5sum")
    some ⟨length, path, md5sum⟩
  | _ => none

/-- Decode the `info` sub-dictionary into the `InfoDict` struct. -/
def decodeInfoDict : Benc → Option InfoDictB
  | .dict d => do
    let pieceLength ← optInt d (gs "piece length")
    let pieces ← optStr d (gs "pieces")
    let private_ ← optInt d (gs "private")
    let name ← optStr d (gs "name")
    let length ← optInt d (gs "length")
    let md5sum ← optStr d (gs "md5sum")
    let files ←
      match dGet d (gs "files") with
      | none => some []
      | some (.list l) => l.mapM decodeFileDict
      | some _ => none
    some ⟨pieceLength, pieces, private_, name, length, md5sum, files⟩
  | _ => none

/-- Decode a whole torrent descriptor into the `MetaInfo` struct: the top
level must be a dictionary; a present `info` key must be a dictionary;
absent keys keep zero values and no other validation happens. -/
def decodeMetaInfo : Benc → Option MetaInfoB
  | .dict d => do
    let info ←
      match dGet d (gs "info") with
      | none => some none
      | some (v@(.dict _)) => (decodeInfoDict v).map some
      | some _ => none
    let announce ← optStr d (gs "announce")
    some ⟨info, announce, []⟩
  | _ => none

/-- Re-encoding of the `info` struct as the codec performs it: keys in
sorted order, `length`, `md5sum` and `files` omitted at their zero values
(`omitempty`), the other fields always present. -/
def encodeInfoDict (i : InfoDictB) : List Nat :=
  encodeBenc (.dict (
    (if i.files ≠ [] then
      [(gs "files", Benc.list (i.files.map (fun f =>
        Benc.dict (
          [(gs "length", Benc.int f.length)] ++
          (if f.md5sum ≠ [] then [(gs "md5sum", Benc.str f.md5sum)] else []) ++
          [(gs "path", Benc.list (f.path.map Benc.str))]))))]
     else []) ++
    (if i.length ≠ 0 then [(gs "length", Benc.int i.length)] else []) ++
    (if i.md5sum ≠ [] then [(gs "md5sum", Benc.str i.md5sum)] else []) ++
    [(gs "name", Benc.str i.name),
     (gs "piece length", Benc.int i.pieceLength),
     (gs "pieces", Benc.str i.pieces),
     (gs "private", Benc.int i.private_)]))

/-- Models `NewMetaInfoFromContent` (metainfo.go lines 88-106): a bencode
decode failure is the only parse error; on success the info-hash is the
SHA-1 of the re-encoded `info` struct.  When `info` is absent the Go
function returns with a nil error whether or not the encoder accepts the
nil `Info` pointer (on an encoder error it returns `nil, nil`), so that
branch is modelled as success with an unspecified hash left empty. -/
def newMetaInfoFromContent (content : List Nat) : Except Unit MetaInfoB :=
  match parseBenc content with
  | none => .error ()
  | some (b, _) =>
    match decodeMetaInfo b with
    | none => .error ()
    | some m =>
      match m.info with
      | some i => .ok { m with infoHash := sha1 (encodeInfoDict i) }
      | none => .ok m

/-- A 20-byte info-hash used in concrete instances. -/
def ihTwenty : List Nat := List.replicate 20 97

/-- A path component that survives cleaning: not empty, not ".", not
"..". -/
def PlainComp (c : List Nat) : Prop := c ≠ [] ∧ c ≠ [46] ∧ c ≠ [46, 46]

/-- The cleaned components of a path string (the rooted flag is read off
the string itself, as `goClean` does). -/
def pathComps (p : List Nat) : List (List Nat) :=
  cleanComps (p.headD 0 = 47) (splitSlash p)

/-- A concrete two-file store (lengths 3 and 5, finalized names), as the
spec scenarios use. -/
def demoStore : FileStoreM :=
  ⟨[0, 3], [⟨3, gs "x", gs "ABC"⟩, ⟨5, gs "y", gs "DEFGH"⟩]⟩

/-- The `files`/`name` part of the spec scenario metainfo: two files of
lengths 3 and 5 under name "r". -/
def demoInfo : InfoDictM :=
  { name := gs "r", files := [⟨3, [gs "x"]⟩, ⟨5, [gs "d", gs "y"]⟩] }

/-- The spec's scenario-1 torrent: a single 4-byte file "a" with one
piece whose hash is SHA-1("ABCD"). -/
def sc1content : List Nat :=
  gs "d4:infod6:lengthi4e4:name1:a12:piece lengthi4e6:pieces20:" ++
    sha1 (gs "ABCD") ++ gs "ee"

/-- A syntactically valid bencoded torrent whose info dictionary has no
`piece length` key and whose `pieces` string is 21 bytes long. -/
def badTorrent : List Nat :=
  gs "d4:infod4:name1:a6:pieces21:AAAAAAAAAAAAAAAAAAAAAee"

/-! ### Helper lemmas: decimal digits, Atoi, Split, hex -/

theorem digitsVal_append_one (l : List Nat) (d : Nat) :
    digitsVal (l ++ [d]) = digitsVal l * 10 + (d - 48) := by
  simp [digitsVal, List.foldl_append]

theorem natDigitsAux_spec (fuel : Nat) : ∀ n, n < fuel →
    digitsVal (natDigitsAux fuel n) = n ∧
    (∀ b ∈ natDigitsAux fuel n, isDigitB b = true) ∧
    natDigitsAux fuel n ≠ [] := by
  induction fuel with
  | zero => intro n h; omega
  | succ fuel ih =>
    intro n h
    by_cases h10 : n < 10
    · refine ⟨by simp [natDigitsAux, h10, digitsVal], ?_, by simp [natDigitsAux, h10]⟩
      intro b hb
      simp [natDigitsAux, h10] at hb
      simp [hb, isDigitB]
      omega
    · have hdiv : n / 10 < fuel := by
        have : n / 10 < n := Nat.div_lt_self (by omega) (by omega)
        omega
      obtain ⟨hval, hdig, hne⟩ := ih (n / 10) hdiv
      refine ⟨?_, ?_, ?_⟩
      · simp only [natDigitsAux, if_neg h10]
        rw [digitsVal_append_one, hval]
        omega
      · intro b hb
        simp only [natDigitsAux, if_neg h10, List.mem_append, List.mem_singleton] at hb
        rcases hb with hb | hb
        · exact hdig b hb
        · subst hb; simp [isDigitB]; omega
      · simp [natDigitsAux, if_neg h10]

theorem digitsVal_natDigits (n : Nat) : digitsVal (natDigits n) = n :=
  (natDigitsAux_spec (n + 1) n (by omega)).1

theorem natDigits_all_digits (n : Nat) : ∀ b ∈ natDigits n, isDigitB b = true :=
  (natDigitsAux_spec (n + 1) n (by omega)).2.1

theorem natDigits_ne_nil (n : Nat) : natDigits n ≠ [] :=
  (natDigitsAux_spec (n + 1) n (by omega)).2.2

theorem goAtoi_natDigits (n : Nat) : goAtoi (natDigits n) = some (n : Int) := by
  rcases hnd : natDigits n with _ | ⟨c, rest⟩
  · exact absurd hnd (natDigits_ne_nil n)
  · have hall : ∀ b ∈ natDigits n, isDigitB b = true := natDigits_all_digits n
    have hc : isDigitB c = true := hall c (by rw [hnd]; exact List.mem_cons_self c rest)
    have hc45 : c ≠ 45 := by simp [isDigitB] at hc; omega
    have hc43 : c ≠ 43 := by simp [isDigitB] at hc; omega
    have hallcr : ((c :: rest).all isDigitB) = true := by
      rw [← hnd]; exact List.all_eq_true.mpr hall
    simp only [goAtoi, if_neg hc45, if_neg hc43, hallcr]
    simp [← hnd, digitsVal_natDigits]

theorem natDigits_no_dash (n : Nat) : 45 ∉ natDigits n := by
  intro h
  have := natDigits_all_digits n 45 h
  simp [isDigitB] at this

theorem hexDigit_not_dash (k : Nat) : hexDigit k ≠ 45 := by
  simp only [hexDigit]
  split <;> omega

theorem hexOfBytes_no_dash (l : List Nat) : 45 ∉ hexOfBytes l := by
  induction l with
  | nil => simp [hexOfBytes]
  | cons b rest ih =>
    simp only [hexOfBytes, List.mem_cons]
    push_neg
    exact ⟨(hexDigit_not_dash _).symm, (hexDigit_not_dash _).symm, ih⟩

theorem goSplit1_no_sep (sep : Nat) (l : List Nat) (h : sep ∉ l) :
    goSplit1 sep l = [l] := by
  induction l with
  | nil => rfl
  | cons c rest ih =>
    have hc : c ≠ sep := fun hc => h (hc ▸ List.mem_cons_self c rest)
    have hrest : sep ∉ rest := fun hr => h (List.mem_cons_of_mem c hr)
    simp only [goSplit1, ih hrest]
    simp [hc]

theorem goSplit1_append (sep : Nat) (a b : List Nat) (ha : sep ∉ a) (hb : sep ∉ b) :
    goSplit1 sep (a ++ sep :: b) = [a, b] := by
  induction a with
  | nil => simp [goSplit1, goSplit1_no_sep sep b hb]
  | cons c rest ih =>
    have hc : c ≠ sep := fun hc => ha (hc ▸ List.mem_cons_self c rest)
    have hrest : sep ∉ rest := fun hr => ha (List.mem_cons_of_mem c hr)
    simp only [List.cons_append, goSplit1]
    rw [show rest.append (sep :: b) = rest ++ sep :: b from rfl, ih hrest]
    simp [hc]

theorem setCurrent_spec (c : Nat) (h ih x : List Nat) (hnd : 45 ∉ h) :
    setCurrent ⟨x, natDigits c ++ 45 :: h⟩ ih =
      ⟨ih, natDigits (c + 1) ++ 45 :: hexOfBytes (sha1 (ih ++ h))⟩ := by
  have hsplit : goSplit1 45 (natDigits c ++ 45 :: h) = [natDigits c, h] :=
    goSplit1_append 45 (natDigits c) h (natDigits_no_dash c) hnd
  have hlen : ([natDigits c, h].length ≠ 2) = False := by simp
  simp only [setCurrent, hsplit, hlen, if_false, List.getD_cons_zero, List.getD_cons_succ,
    goAtoi_natDigits, Option.getD_some]
  have h1 : ¬((c : Int) + 1 < 0) := by omega
  have h2 : ((c : Int) + 1).toNat = c + 1 := by omega
  simp only [intToChars, if_neg h1, h2]
  simp

theorem foldl_setCurrent_counter (ihs : List (List Nat)) :
    ∀ (c : Nat) (h x : List Nat), 45 ∉ h →
    ∃ hx : List Nat, 45 ∉ hx ∧
      (ihs.foldl setCurrent ⟨x, natDigits c ++ 45 :: h⟩).rev =
        natDigits (c + ihs.length) ++ 45 :: hx := by
  induction ihs with
  | nil => intro c h x hnd; exact ⟨h, hnd, by simp⟩
  | cons ih rest tail_ih =>
    intro c h x hnd
    rw [List.foldl_cons, setCurrent_spec c h ih x hnd]
    obtain ⟨hx, hx45, hrev⟩ :=
      tail_ih (c + 1) (hexOfBytes (sha1 (ih ++ h))) ih (hexOfBytes_no_dash _)
    refine ⟨hx, hx45, ?_⟩
    rw [hrev]
    have : c + 1 + rest.length = c + (rest.length + 1) := by omega
    rw [this]
    simp

/-- C1, counterexample to the claim as stated: with `rev = "5-a-b"` — the
form `"<c>-<h>"` with `c = 5` and `h = "a-b"` — and a 20-byte info-hash,
`SetCurrent` does not produce `"6-" ++ hex(SHA-1(ih ++ "a-b"))`: the
three-way split of the old revision on "-" makes the code fall back to
counter 0 and an empty hash, so the new revision starts with "1-". -/
theorem C1_counterexample :
    gs "5-a-b" = natDigits 5 ++ 45 :: gs "a-b" ∧
    ihTwenty.length = 20 ∧
    setCurrent ⟨[], gs "5-a-b"⟩ ihTwenty ≠
      ⟨ihTwenty, natDigits (5 + 1) ++ 45 :: hexOfBytes (sha1 (ihTwenty ++ gs "a-b"))⟩ ∧
    (setCurrent ⟨[], gs "5-a-b"⟩ ihTwenty).rev =
      natDigits 1 ++ 45 :: hexOfBytes (sha1 ihTwenty) := by
  refine ⟨by decide, by decide, ?_, by decide⟩
  decide

/-- C1, amended: for every session state whose revision has the form
`"<c>-<h>"` with `c` a decimal natural number and `h` a string containing
no "-", and every 20-byte info-hash `ih`, `SetCurrent ih` sets
`currentIH` to `ih` and the revision to `"<c+1>-"` followed by the
lowercase hex SHA-1 of `ih ++ h`; consequently after `N` `SetCurrent`
calls starting from revision `"0-"` the counter part of the revision is
`N`. -/
theorem C1_setCurrent_rev :
    (∀ (c : Nat) (h ih x : List Nat), 45 ∉ h → ih.length = 20 →
      setCurrent ⟨x, natDigits c ++ 45 :: h⟩ ih =
        ⟨ih, natDigits (c + 1) ++ 45 :: hexOfBytes (sha1 (ih ++ h))⟩) ∧
    (∀ (ihs : List (List Nat)) (x : List Nat),
      ∃ hx : List Nat, 45 ∉ hx ∧
        (ihs.foldl setCurrent ⟨x, gs "0-"⟩).rev =
          natDigits ihs.length ++ 45 :: hx) := by
  constructor
  · intro c h ih x hnd _
    exact setCurrent_spec c h ih x hnd
  · intro ihs x
    have h0 : gs "0-" = natDigits 0 ++ 45 :: ([] : List Nat) := by decide
    rw [h0]
    obtain ⟨hx, hx45, hrev⟩ := foldl_setCurrent_counter ihs 0 [] x (by simp)
    exact ⟨hx, hx45, by simpa using hrev⟩

/-- C1 witness: the amended theorem applied at counter 0, empty hash part
and a concrete 20-byte info-hash. -/
theorem C1_witness :
    setCurrent ⟨[], natDigits 0 ++ 45 :: []⟩ ihTwenty =
      ⟨ihTwenty, natDigits (0 + 1) ++ 45 :: hexOfBytes (sha1 (ihTwenty ++ []))⟩ :=
  C1_setCurrent_rev.1 0 [] ihTwenty [] (by decide) (by decide)

/-- C2: the restore path of `NewControlSession` splits the persisted
revision on the literal character "2" where the documented format
`"<counter>-<hash>"` (and `SetCurrent` itself) uses "-".  The revision
"1-ab" parses as `"<int>-<hex>"` yet is discarded (rev falls back to
"0-"), while "123" does not parse as `"<int>-<hex>"` yet is kept. -/
theorem C2_initRev_split_bug :
    initRev (gs "1-ab") = gs "0-" ∧ initRevSpec (gs "1-ab") = gs "1-ab" ∧
    initRev (gs "123") = gs "123" ∧ initRevSpec (gs "123") = gs "0-" := by
  decide

/-! ### Helper lemmas: peer table -/

theorem ptLookup_nil (a : List Nat) : ptLookup ([] : PeerTable) a = none := rfl

theorem ptLookup_cons (p : List Nat × List Nat) (t : PeerTable) (a : List Nat) :
    ptLookup (p :: t) a = if p.1 = a then some p.2 else ptLookup t a := by
  by_cases hpa : p.1 = a
  · simp [ptLookup, List.find?, hpa]
  · simp [ptLookup, List.find?, hpa]

theorem ptInsert_cons (p : List Nat × List Nat) (t : PeerTable) (a i : List Nat) :
    ptInsert (p :: t) a i = if p.1 = a then (a, i) :: t else p :: ptInsert t a i := rfl

theorem ptLookup_insert_self (t : PeerTable) (a i : List Nat) :
    ptLookup (ptInsert t a i) a = some i := by
  induction t with
  | nil => simp [ptInsert, ptLookup_cons]
  | cons p rest ih =>
    by_cases hp : p.1 = a
    · rw [ptInsert_cons, if_pos hp, ptLookup_cons]
      simp
    · rw [ptInsert_cons, if_neg hp, ptLookup_cons, if_neg hp]
      exact ih

theorem ptLookup_insert_other (t : PeerTable) (a i a' : List Nat) (h : a' ≠ a) :
    ptLookup (ptInsert t a i) a' = ptLookup t a' := by
  have haa : a ≠ a' := fun hh => h hh.symm
  induction t with
  | nil => simp [ptInsert, ptLookup_cons, haa, ptLookup_nil]
  | cons p rest ih =>
    by_cases hp : p.1 = a
    · have h1 : p.1 ≠ a' := fun hh => haa (hp ▸ hh)
      rw [ptInsert_cons, if_pos hp, ptLookup_cons, if_neg haa, ptLookup_cons, if_neg h1]
    · rw [ptInsert_cons, if_neg hp, ptLookup_cons, ptLookup_cons]
      by_cases hpa : p.1 = a'
      · rw [if_pos hpa, if_pos hpa]
      · rw [if_neg hpa, if_neg hpa]
        exact ih

theorem ptInsert_fst_mem (t : PeerTable) (a i x : List Nat) :
    x ∈ (ptInsert t a i).map Prod.fst ↔ x = a ∨ x ∈ t.map Prod.fst := by
  induction t with
  | nil => simp [ptInsert]
  | cons p rest ih =>
    by_cases hp : p.1 = a
    · rw [ptInsert_cons, if_pos hp]
      simp [← hp]
    · rw [ptInsert_cons, if_neg hp]
      simp only [List.map_cons, List.mem_cons, ih]
      tauto

theorem ptInsert_snd_mem (t : PeerTable) (a i y : List Nat) :
    y ∈ (ptInsert t a i).map Prod.snd → y = i ∨ y ∈ t.map Prod.snd := by
  induction t with
  | nil => simp [ptInsert]
  | cons p rest ih =>
    by_cases hp : p.1 = a
    · rw [ptInsert_cons, if_pos hp]
      simp only [List.map_cons, List.mem_cons]
      tauto
    · rw [ptInsert_cons, if_neg hp]
      simp only [List.map_cons, List.mem_cons]
      intro h
      rcases h with h | h
      · exact Or.inr (Or.inl h)
      · rcases ih h with h' | h'
        · exact Or.inl h'
        · exact Or.inr (Or.inr h')

theorem ptInsert_length_mem (t : PeerTable) (a i : List Nat) (h : a ∈ t.map Prod.fst) :
    (ptInsert t a i).length = t.length := by
  induction t with
  | nil => simp at h
  | cons p rest ih =>
    by_cases hp : p.1 = a
    · rw [ptInsert_cons, if_pos hp]
      simp
    · simp only [List.map_cons, List.mem_cons] at h
      rcases h with h | h
      · exact absurd h.symm hp
      · rw [ptInsert_cons, if_neg hp]
        simp [ih h]

theorem ptInsert_length_not_mem (t : PeerTable) (a i : List Nat) (h : a ∉ t.map Prod.fst) :
    (ptInsert t a i).length = t.length + 1 := by
  induction t with
  | nil => simp [ptInsert]
  | cons p rest ih =>
    simp only [List.map_cons, List.mem_cons] at h
    push_neg at h
    have hp : p.1 ≠ a := fun hh => h.1 hh.symm
    rw [ptInsert_cons, if_neg hp]
    simp [ih h.2]

theorem ptInsert_fst_nodup (t : PeerTable) (a i : List Nat)
    (h : (t.map Prod.fst).Nodup) : ((ptInsert t a i).map Prod.fst).Nodup := by
  induction t with
  | nil => simp [ptInsert]
  | cons p rest ih =>
    simp only [List.map_cons, List.nodup_cons] at h
    by_cases hp : p.1 = a
    · rw [ptInsert_cons, if_pos hp]
      simp only [List.map_cons, List.nodup_cons]
      exact ⟨by rw [← hp]; exact h.1, h.2⟩
    · rw [ptInsert_cons, if_neg hp]
      simp only [List.map_cons, List.nodup_cons]
      refine ⟨?_, ih h.2⟩
      rw [ptInsert_fst_mem]
      push_neg
      exact ⟨hp, h.1⟩

theorem ptInsert_snd_nodup (t : PeerTable) (a i : List Nat)
    (h : (t.map Prod.snd).Nodup) (hi : i ∉ t.map Prod.snd) :
    ((ptInsert t a i).map Prod.snd).Nodup := by
  induction t with
  | nil => simp [ptInsert]
  | cons p rest ih =>
    simp only [List.map_cons, List.nodup_cons] at h
    simp only [List.map_cons, List.mem_cons] at hi
    push_neg at hi
    by_cases hp : p.1 = a
    · rw [ptInsert_cons, if_pos hp]
      simp only [List.map_cons, List.nodup_cons]
      exact ⟨fun hh => hi.2 hh, h.2⟩
    · rw [ptInsert_cons, if_neg hp]
      simp only [List.map_cons, List.nodup_cons]
      refine ⟨?_, ih h.2 hi.2⟩
      intro hmem
      rcases ptInsert_snd_mem rest a i p.2 hmem with h' | h'
      · exact hi.1.symm h'
      · exact h.1 h'

theorem addPeer_preserves_inv (maxNumPeers : Nat) (t : PeerTable) (c : BtConnM)
    (h : PeerInv maxNumPeers t) : PeerInv maxNumPeers (addPeer maxNumPeers t c) := by
  obtain ⟨hlen, hfst, hsnd⟩ := h
  by_cases hdup : t.any (fun p => p.2 = c.id)
  · simpa [addPeer, hdup] using ⟨hlen, hfst, hsnd⟩
  · by_cases hfull : maxNumPeers ≤ t.length
    · simp only [addPeer]
      rw [if_neg (by simpa using hdup), if_pos hfull]
      exact ⟨hlen, hfst, hsnd⟩
    · simp only [addPeer]
      rw [if_neg (by simpa using hdup), if_neg hfull]
      have hid : c.id ∉ t.map Prod.snd := by
        intro hmem
        rcases List.mem_map.mp hmem with ⟨p, hp, hpid⟩
        exact hdup (List.any_eq_true.mpr ⟨p, hp, by simp [hpid]⟩)
      refine ⟨?_, ptInsert_fst_nodup t c.addr c.id hfst, ptInsert_snd_nodup t c.addr c.id hsnd hid⟩
      by_cases hmem : c.addr ∈ t.map Prod.fst
      · rw [ptInsert_length_mem t c.addr c.id hmem]; omega
      · rw [ptInsert_length_not_mem t c.addr c.id hmem]; omega

/-- C6: `AddPeer` drops a connection whose peer id is already in the
table, drops any connection once the table holds `MAX_NUM_PEERS` peers,
and otherwise stores exactly one entry for the connection under its
remote address (growing the table by one whenever that address is new);
consequently, over any sequence of `AddPeer` calls the table never
exceeds `MAX_NUM_PEERS` entries and never holds two entries with equal
peer id (nor two entries for one address). -/
theorem C6_addPeer_inv :
    (∀ (maxNumPeers : Nat) (t : PeerTable) (c : BtConnM),
      (t.any fun p => p.2 = c.id) = true → addPeer maxNumPeers t c = t) ∧
    (∀ (maxNumPeers : Nat) (t : PeerTable) (c : BtConnM),
      maxNumPeers ≤ t.length → addPeer maxNumPeers t c = t) ∧
    (∀ (maxNumPeers : Nat) (t : PeerTable) (c : BtConnM),
      (t.any fun p => p.2 = c.id) = false → t.length < maxNumPeers →
      ptLookup (addPeer maxNumPeers t c) c.addr = some c.id ∧
      (∀ a, a ≠ c.addr → ptLookup (addPeer maxNumPeers t c) a = ptLookup t a) ∧
      (addPeer maxNumPeers t c).length ≤ t.length + 1 ∧
      (c.addr ∉ t.map Prod.fst → (addPeer maxNumPeers t c).length = t.length + 1)) ∧
    (∀ (maxNumPeers : Nat) (conns : List BtConnM),
      PeerInv maxNumPeers (conns.foldl (addPeer maxNumPeers) [])) := by
  refine ⟨?_, ?_, ?_, ?_⟩
  · intro m t c h
    simp [addPeer, h]
  · intro m t c h
    by_cases hdup : t.any (fun p => p.2 = c.id)
    · simp [addPeer, hdup]
    · simp only [addPeer]
      rw [if_neg (by simpa using hdup), if_pos h]
  · intro m t c hdup hlt
    have hins : addPeer m t c = ptInsert t c.addr c.id := by
      simp only [addPeer]
      rw [if_neg (by simp [hdup]), if_neg (by omega)]
    rw [hins]
    refine ⟨ptLookup_insert_self t c.addr c.id,
      fun a ha => ptLookup_insert_other t c.addr c.id a ha, ?_,
      fun hmem => ptInsert_length_not_mem t c.addr c.id hmem⟩
    by_cases hmem : c.addr ∈ t.map Prod.fst
    · rw [ptInsert_length_mem t c.addr c.id hmem]; omega
    · rw [ptInsert_length_not_mem t c.addr c.id hmem]
  · intro m conns
    have hbase : PeerInv m [] := ⟨by simp, by simp, by simp⟩
    have : ∀ (cs : List BtConnM) (t : PeerTable), PeerInv m t →
        PeerInv m (cs.foldl (addPeer m) t) := by
      intro cs
      induction cs with
      | nil => intro t h; simpa
      | cons c rest ih =>
        intro t h
        exact ih (addPeer m t c) (addPeer_preserves_inv m t c h)
    exact this conns [] hbase

/-- C6 witness: the per-call clauses applied at concrete tables (a
duplicate id, a full table, and a fresh insertion) and the invariant for
a concrete call sequence. -/
theorem C6_witness :
    addPeer 5 [(gs "1.2.3.4:1", gs "A")] ⟨gs "5.6.7.8:2", gs "A"⟩ =
      [(gs "1.2.3.4:1", gs "A")] ∧
    addPeer 1 [(gs "1.2.3.4:1", gs "A")] ⟨gs "5.6.7.8:2", gs "B"⟩ =
      [(gs "1.2.3.4:1", gs "A")] ∧
    ptLookup (addPeer 5 [(gs "1.2.3.4:1", gs "A")] ⟨gs "5.6.7.8:2", gs "B"⟩)
      (gs "5.6.7.8:2") = some (gs "B") ∧
    PeerInv 7 ([⟨gs "1.2.3.4:1", gs "A"⟩, ⟨gs "5.6.7.8:2", gs "A"⟩].foldl (addPeer 7) []) :=
  ⟨C6_addPeer_inv.1 5 _ _ (by decide),
   C6_addPeer_inv.2.1 1 _ _ (by decide),
   (C6_addPeer_inv.2.2.1 5 _ _ (by decide) (by decide)).1,
   C6_addPeer_inv.2.2.2 7 _⟩

/-! ### Helper lemmas: path cleaning (C5) -/

theorem goSplit1_ne_nil (sep : Nat) (l : List Nat) : goSplit1 sep l ≠ [] := by
  cases l with
  | nil => simp [goSplit1]
  | cons c rest =>
    simp only [goSplit1]
    rcases h : goSplit1 sep rest with _ | ⟨h', t⟩
    · simp
    · by_cases hc : c = sep <;> simp [hc]

theorem goSplit1_sep_not_mem (sep : Nat) (l : List Nat) :
    ∀ c ∈ goSplit1 sep l, sep ∉ c := by
  induction l with
  | nil => simp [goSplit1]
  | cons b rest ih =>
    rcases h : goSplit1 sep rest with _ | ⟨h', t⟩
    · exact absurd h (goSplit1_ne_nil sep rest)
    · have hmem : ∀ c ∈ h' :: t, sep ∉ c := fun c hc => ih c (h ▸ hc)
      by_cases hb : b = sep
      · simp only [goSplit1, h, if_pos hb]
        intro c hc
        rcases List.mem_cons.mp hc with hc' | hc'
        · subst hc'; simp
        · exact hmem c hc'
      · simp only [goSplit1, h, if_neg hb]
        intro c hc
        rcases List.mem_cons.mp hc with hc' | hc'
        · subst hc'
          intro hsep
          rcases List.mem_cons.mp hsep with hs | hs
          · exact hb hs.symm
          · exact hmem h' (List.mem_cons_self h' t) hs
        · exact hmem c (List.mem_cons_of_mem h' hc')

theorem goSplit1_append_gen (sep : Nat) (a b : List Nat) :
    goSplit1 sep (a ++ sep :: b) = goSplit1 sep a ++ goSplit1 sep b := by
  induction a with
  | nil =>
    simp only [List.nil_append, goSplit1]
    rcases h : goSplit1 sep b with _ | ⟨h', t⟩
    · exact absurd h (goSplit1_ne_nil sep b)
    · simp
  | cons c a' ih =>
    rw [List.cons_append]
    simp only [goSplit1]
    rw [ih]
    rcases h : goSplit1 sep a' with _ | ⟨h', t⟩
    · exact absurd h (goSplit1_ne_nil sep a')
    · simp only [List.cons_append]
      by_cases hc : c = sep <;> simp [hc]

theorem splitSlash_intercalated (parts : List (List Nat))
    (hne : parts ≠ []) (hsep : ∀ c ∈ parts, (47 : Nat) ∉ c) :
    splitSlash ((List.intersperse [47] parts).flatten) = parts := by
  induction parts with
  | nil => exact absurd rfl hne
  | cons p ps ih =>
    cases ps with
    | nil =>
      simp only [List.intersperse_singleton, List.flatten_cons, List.flatten_nil,
        List.append_nil]
      exact goSplit1_no_sep 47 p (hsep p (List.mem_cons_self p []))
    | cons q r =>
      have hflat : (List.intersperse [47] (p :: q :: r)).flatten =
          p ++ 47 :: (List.intersperse [47] (q :: r)).flatten := by
        simp
      rw [hflat]
      unfold splitSlash
      rw [goSplit1_append_gen]
      have hp : goSplit1 47 p = [p] :=
        goSplit1_no_sep 47 p (hsep p (List.mem_cons_self p (q :: r)))
      rw [hp]
      have hqr : splitSlash ((List.intersperse [47] (q :: r)).flatten) = q :: r :=
        ih (by simp) (fun c hc => hsep c (List.mem_cons_of_mem p hc))
      unfold splitSlash at hqr
      rw [hqr]
      rfl

theorem cleanStep_cases (stack : List (List Nat)) (d : List Nat) :
    ∀ x ∈ cleanStep true stack d, x ∈ stack ∨ (x = d ∧ PlainComp d) := by
  intro x hx
  simp only [cleanStep] at hx
  split at hx
  · exact Or.inl hx
  · next hskip =>
    split at hx
    · split at hx
      · exact Or.inl (List.dropLast_subset stack hx)
      · split at hx
        · exact Or.inl hx
        · simp at *
    · next hdd =>
      rcases List.mem_append.mp hx with hs | hs
      · exact Or.inl hs
      · simp only [List.mem_singleton] at hs
        push_neg at hskip
        exact Or.inr ⟨hs, hskip.1, hskip.2, hdd⟩

theorem cleanComps_plain_sub (comps : List (List Nat)) :
    ∀ stack : List (List Nat), (∀ c ∈ stack, PlainComp c) →
    ∀ c ∈ comps.foldl (cleanStep true) stack, PlainComp c ∧ (c ∈ stack ∨ c ∈ comps) := by
  induction comps with
  | nil =>
    intro stack hstack c hc
    exact ⟨hstack c hc, Or.inl hc⟩
  | cons d rest ih =>
    intro stack hstack c hc
    rw [List.foldl_cons] at hc
    have step_plain : ∀ x ∈ cleanStep true stack d, PlainComp x := by
      intro x hx
      rcases cleanStep_cases stack d x hx with h | h
      · exact hstack x h
      · exact h.1 ▸ h.2
    obtain ⟨hp, hmem⟩ := ih (cleanStep true stack d) step_plain c hc
    refine ⟨hp, ?_⟩
    rcases hmem with h | h
    · rcases cleanStep_cases stack d c h with h' | h'
      · exact Or.inl h'
      · exact Or.inr (h'.1 ▸ List.mem_cons_self d rest)
    · exact Or.inr (List.mem_cons_of_mem d h)

theorem goSplit1_cons_sep (sep : Nat) (l : List Nat) :
    goSplit1 sep (sep :: l) = [] :: goSplit1 sep l := by
  simp only [goSplit1]
  rcases h : goSplit1 sep l with _ | ⟨h', t⟩
  · exact absurd h (goSplit1_ne_nil sep l)
  · simp

theorem cleanComps_cons_empty (r : Bool) (A : List (List Nat)) :
    cleanComps r ([] :: A) = cleanComps r A := by
  simp [cleanComps, cleanStep]

theorem foldl_cleanStep_pushables (B : List (List Nat)) :
    ∀ (r : Bool) (stack : List (List Nat)), (∀ c ∈ B, c ≠ [46, 46]) →
    B.foldl (cleanStep r) stack =
      stack ++ B.filter (fun c => decide (c ≠ [] ∧ c ≠ [46])) := by
  induction B with
  | nil => intro r stack _; simp
  | cons d rest ih =>
    intro r stack hdd
    rw [List.foldl_cons]
    by_cases hskip : d = [] ∨ d = [46]
    · have hstep : cleanStep r stack d = stack := by
        simp only [cleanStep]
        rw [if_pos hskip]
      have hfilter : decide (d ≠ [] ∧ d ≠ [46]) = false := by
        rcases hskip with h | h <;> simp [h]
      rw [hstep, List.filter_cons, hfilter]
      simp only [Bool.false_eq_true, if_false]
      exact ih r stack (fun c hc => hdd c (List.mem_cons_of_mem d hc))
    · have hstep : cleanStep r stack d = stack ++ [d] := by
        simp only [cleanStep]
        rw [if_neg hskip, if_neg (hdd d (List.mem_cons_self d rest))]
      have hfilter : decide (d ≠ [] ∧ d ≠ [46]) = true := by
        push_neg at hskip
        simp [hskip.1, hskip.2]
      rw [hstep, List.filter_cons, hfilter, ih r (stack ++ [d])
        (fun c hc => hdd c (List.mem_cons_of_mem d hc))]
      simp

theorem cleanComps_append (r : Bool) (A B : List (List Nat)) :
    cleanComps r (A ++ B) = B.foldl (cleanStep r) (cleanComps r A) := by
  simp [cleanComps, List.foldl_append]

theorem cleanSrcPath_eq (srcPath : List (List Nat)) :
    cleanSrcPath srcPath =
      (List.intersperse [47]
        (cleanComps true (splitSlash (goPathJoin srcPath)))).flatten := by
  unfold cleanSrcPath goClean
  have h2 : splitSlash (47 :: goPathJoin srcPath) = [] :: splitSlash (goPathJoin srcPath) :=
    goSplit1_cons_sep 47 _
  rw [h2]
  simp [cleanComps_cons_empty]

theorem cleanComps_nil_plain (X : List Nat) :
    ∀ c ∈ cleanComps true (splitSlash X), PlainComp c ∧ (47 : Nat) ∉ c := by
  intro c hc
  obtain ⟨hp, hmem⟩ := cleanComps_plain_sub (splitSlash X) [] (by simp) c hc
  refine ⟨hp, ?_⟩
  rcases hmem with h | h
  · simp at h
  · exact goSplit1_sep_not_mem 47 X c h

theorem headD_flatten_inter (S : List (List Nat)) (hS : S ≠ [])
    (hhead : ∀ c ∈ S, c ≠ []) :
    ((List.intersperse [47] S).flatten).headD 0 = (S.headD []).headD 0 := by
  cases S with
  | nil => exact absurd rfl hS
  | cons s rest =>
    have hs : s ≠ [] := hhead s (List.mem_cons_self s rest)
    cases rest with
    | nil =>
      simp only [List.intersperse_singleton, List.flatten_cons, List.flatten_nil,
        List.append_nil, List.headD_cons]
    | cons q r =>
      have : (List.intersperse [47] (s :: q :: r)).flatten =
          s ++ 47 :: (List.intersperse [47] (q :: r)).flatten := by simp
      rw [this]
      cases s with
      | nil => exact absurd rfl hs
      | cons x xs => simp

theorem splitSlash_rel (S : List (List Nat))
    (hplain : ∀ c ∈ S, PlainComp c ∧ (47 : Nat) ∉ c) :
    splitSlash ((List.intersperse [47] S).flatten) = if S = [] then [[]] else S := by
  by_cases hS : S = []
  · subst hS
    simp [splitSlash, goSplit1]
  · rw [if_neg hS]
    exact splitSlash_intercalated S hS (fun c hc => (hplain c hc).2)

theorem cleanComps_of_plain (S' : List (List Nat))
    (hplain : ∀ c ∈ S', PlainComp c) : cleanComps true S' = S' := by
  have hdd : ∀ c ∈ S', c ≠ [46, 46] := fun c hc => (hplain c hc).2.2
  unfold cleanComps
  rw [foldl_cleanStep_pushables S' true [] hdd]
  simp only [List.nil_append]
  apply List.filter_eq_self.mpr
  intro c hc
  simp [(hplain c hc).1, (hplain c hc).2.1]

theorem pathComps_clean_rooted (q : List Nat) (hq : q.headD 0 = 47) :
    pathComps q = cleanComps true (splitSlash q) := by
  unfold pathComps
  rw [hq]
  simp

theorem pathComps_of_stack (stack' : List (List Nat))
    (hplain : ∀ c ∈ stack', PlainComp c ∧ (47 : Nat) ∉ c) :
    pathComps (47 :: (List.intersperse [47] stack').flatten) = stack' := by
  rw [pathComps_clean_rooted _ (by simp)]
  have hsp : splitSlash (47 :: (List.intersperse [47] stack').flatten) =
      [] :: splitSlash ((List.intersperse [47] stack').flatten) := goSplit1_cons_sep 47 _
  rw [hsp, cleanComps_cons_empty, splitSlash_rel stack' hplain]
  by_cases hS : stack' = []
  · rw [if_pos hS, hS]
    show cleanComps true [[]] = []
    rw [show ([[]] : List (List Nat)) = [] :: [] from rfl, cleanComps_cons_empty]
    rfl
  · rw [if_neg hS]
    exact cleanComps_of_plain stack' (fun c hc => (hplain c hc).1)

/-- C5: the backing path computed by `NewFileStore` stays inside the
store root: the cleaned relative source path contains no ".." component
and is not absolute, and the components of the joined path are exactly
the root's components followed by plain components. -/
theorem C5_no_escape (storePath : List Nat) (srcPath : List (List Nat))
    (hroot : storePath.headD 0 = 47) :
    (∀ c ∈ splitSlash (cleanSrcPath srcPath), c ≠ gs "..") ∧
    (cleanSrcPath srcPath).headD 0 ≠ 47 ∧
    (∃ t, pathComps (fullPathFor storePath srcPath) = pathComps storePath ++ t ∧
      ∀ c ∈ t, c ≠ gs ".." ∧ c ≠ []) := by
  have hdd : gs ".." = [46, 46] := by decide
  have hrel : cleanSrcPath srcPath =
      (List.intersperse [47] (cleanComps true (splitSlash (goPathJoin srcPath)))).flatten :=
    cleanSrcPath_eq srcPath
  obtain ⟨S, hSdef⟩ : ∃ S', S' = cleanComps true (splitSlash (goPathJoin srcPath)) :=
    ⟨_, rfl⟩
  rw [← hSdef] at hrel
  have hSplain : ∀ c ∈ S, PlainComp c ∧ (47 : Nat) ∉ c := by
    rw [hSdef]
    exact cleanComps_nil_plain _
  have hsplit : splitSlash (cleanSrcPath srcPath) = if S = [] then [[]] else S := by
    rw [hrel]
    exact splitSlash_rel S hSplain
  have hc1 : ∀ c ∈ splitSlash (cleanSrcPath srcPath), c ≠ gs ".." := by
    intro c hc
    rw [hsplit] at hc
    by_cases hSe : S = []
    · rw [if_pos hSe] at hc
      simp at hc
      subst hc
      rw [hdd]
      simp
    · rw [if_neg hSe] at hc
      rw [hdd]
      exact (hSplain c hc).1.2.2
  have hc2 : (cleanSrcPath srcPath).headD 0 ≠ 47 := by
    rw [hrel]
    by_cases hSe : S = []
    · rw [hSe]
      simp
    · rw [headD_flatten_inter S hSe (fun c hc => (hSplain c hc).1.1)]
      rcases hV : S with _ | ⟨s, rest⟩
      · exact absurd hV hSe
      · have hs := hSplain s (hV ▸ List.mem_cons_self s rest)
        rcases hsc : s with _ | ⟨x, xs⟩
        · exact absurd hsc hs.1.1
        · have hx : x ≠ 47 := by
            intro hx
            exact hs.2 (hsc ▸ hx ▸ List.mem_cons_self x xs)
          simpa [hV, hsc] using hx
  refine ⟨hc1, hc2, ?_⟩
  rcases hsp : storePath with _ | ⟨a, sp'⟩
  · rw [hsp] at hroot
    simp at hroot
  · have ha : a = 47 := by
      rw [hsp] at hroot
      simpa using hroot
    subst ha
    rw [← hsp]
    have hspne : storePath ≠ [] := by rw [hsp]; simp
    have hfull : fullPathFor storePath srcPath =
        goClean (storePath ++ 47 :: cleanSrcPath srcPath) := by
      unfold fullPathFor goPathJoin
      have hdw : ([storePath, cleanSrcPath srcPath].dropWhile (fun e => e = [])) =
          [storePath, cleanSrcPath srcPath] := by
        rw [List.dropWhile_cons]
        simp [hspne]
      rw [hdw]
      have hfl : (List.intersperse [47] [storePath, cleanSrcPath srcPath]).flatten =
          storePath ++ 47 :: cleanSrcPath srcPath := by
        simp
      exact congrArg goClean hfl
    have hhead2 : (storePath ++ 47 :: cleanSrcPath srcPath).headD 0 = 47 := by
      rw [hsp]
      simp
    have hB : ∀ c ∈ splitSlash (cleanSrcPath srcPath), c ≠ [46, 46] := by
      intro c hc
      have := hc1 c hc
      rw [hdd] at this
      exact this
    set t := (splitSlash (cleanSrcPath srcPath)).filter
      (fun c => decide (c ≠ [] ∧ c ≠ [46])) with htdef
    have ht : ∀ c ∈ t, c ≠ gs ".." ∧ c ≠ [] := by
      intro c hc
      rw [htdef] at hc
      have hmem := List.mem_of_mem_filter hc
      have hpred := List.of_mem_filter hc
      simp only [decide_eq_true_eq] at hpred
      exact ⟨hc1 c hmem, hpred.1⟩
    have hstack' : cleanComps true (splitSlash (storePath ++ 47 :: cleanSrcPath srcPath)) =
        cleanComps true (splitSlash storePath) ++ t := by
      have hdist : splitSlash (storePath ++ 47 :: cleanSrcPath srcPath) =
          splitSlash storePath ++ splitSlash (cleanSrcPath srcPath) :=
        goSplit1_append_gen 47 storePath (cleanSrcPath srcPath)
      rw [hdist, cleanComps_append,
        foldl_cleanStep_pushables (splitSlash (cleanSrcPath srcPath)) true
          (cleanComps true (splitSlash storePath)) hB]
    have hstackplain : ∀ c ∈ cleanComps true (splitSlash storePath) ++ t,
        PlainComp c ∧ (47 : Nat) ∉ c := by
      intro c hc
      rcases List.mem_append.mp hc with h | h
      · exact cleanComps_nil_plain storePath c h
      · have hmem := List.mem_of_mem_filter h
        have hpred := List.of_mem_filter h
        simp only [decide_eq_true_eq] at hpred
        exact ⟨⟨hpred.1, hpred.2, hB c hmem⟩, goSplit1_sep_not_mem 47 _ c hmem⟩
    have hgc : goClean (storePath ++ 47 :: cleanSrcPath srcPath) =
        47 :: (List.intersperse [47]
          (cleanComps true (splitSlash (storePath ++ 47 :: cleanSrcPath srcPath)))).flatten := by
      unfold goClean
      rw [hhead2]
      simp
    refine ⟨t, ?_, ht⟩
    rw [hfull, hgc, hstack', pathComps_of_stack _ hstackplain,
      pathComps_clean_rooted storePath hroot]

/-- C5 witness: the theorem applied to root "/tmp/t" and a source path
that tries to climb out with "..". -/
theorem C5_witness :
    (∀ c ∈ splitSlash (cleanSrcPath [gs "..", gs "etc", gs "passwd"]), c ≠ gs "..") ∧
    (cleanSrcPath [gs "..", gs "etc", gs "passwd"]).headD 0 ≠ 47 ∧
    (∃ t, pathComps (fullPathFor (gs "/tmp/t") [gs "..", gs "etc", gs "passwd"]) =
        pathComps (gs "/tmp/t") ++ t ∧
      ∀ c ∈ t, c ≠ gs ".." ∧ c ≠ []) :=
  C5_no_escape (gs "/tmp/t") [gs "..", gs "etc", gs "passwd"] (by decide)

/-! ### Helper lemmas: file store -/

theorem goSearchAux_spec (f : Nat → Bool) :
    ∀ rem j, j ≤ goSearchAux f rem j ∧ goSearchAux f rem j ≤ j + rem ∧
      (goSearchAux f rem j < j + rem → f (goSearchAux f rem j) = true) ∧
      (∀ k, j ≤ k → k < goSearchAux f rem j → f k = false) := by
  intro rem
  induction rem with
  | zero =>
    intro j
    simp [goSearchAux]
    omega
  | succ rem ih =>
    intro j
    by_cases hf : f j
    · simp only [goSearchAux, if_pos hf]
      exact ⟨le_refl j, by omega, fun _ => hf, fun k hk1 hk2 => by omega⟩
    · simp only [goSearchAux, if_neg hf]
      obtain ⟨h1, h2, h3, h4⟩ := ih (j + 1)
      refine ⟨by omega, by omega, by
        intro h
        exact h3 (by omega), ?_⟩
      intro k hk1 hk2
      by_cases hkj : k = j
      · subst hkj
        simpa using hf
      · exact h4 k (by omega) hk2

theorem goSearch_spec (n : Nat) (f : Nat → Bool) :
    goSearch n f ≤ n ∧ (goSearch n f < n → f (goSearch n f) = true) ∧
      (∀ k, k < goSearch n f → f k = false) := by
  obtain ⟨h1, h2, h3, h4⟩ := goSearchAux_spec f n 0
  exact ⟨by simpa [goSearch] using h2, by simpa [goSearch] using h3,
    fun k hk => h4 k (by omega) (by simpa [goSearch] using hk)⟩

theorem wfs_length {files : List FileEntryM} {offs : List Nat} {b : Nat}
    (h : WfSuffix files offs b) : files.length = offs.length := by
  induction h with
  | nil => rfl
  | cons fe files offs base hlen hrest ih => simpa using ih

theorem wfs_flat_length {files : List FileEntryM} {offs : List Nat} {b : Nat}
    (h : WfSuffix files offs b) :
    (flatBytes files).length = (files.map FileEntryM.length).sum := by
  induction h with
  | nil => rfl
  | cons fe files offs base hlen hrest ih =>
    simp only [flatBytes, List.map_cons, List.flatten_cons, List.length_append,
      List.sum_cons] at *
    omega

theorem fsReadLoop_zero (files : List FileEntryM) (offs : List Nat) (off : Nat) :
    fsReadLoop files offs 0 off = ([], 0, true) := by
  cases offs with
  | nil => simp [fsReadLoop]
  | cons foff offs => simp [fsReadLoop]

theorem fsWriteLoop_nil (files : List FileEntryM) (offs : List Nat) (off : Nat) :
    fsWriteLoop files offs [] off = (files, 0, true) := by
  cases offs with
  | nil => simp [fsWriteLoop, zeroCheck, List.findIdx?]
  | cons foff offs => simp [fsWriteLoop]

theorem fsReadLoop_eq {files : List FileEntryM} {offs : List Nat} {b : Nat}
    (hwf : WfSuffix files offs b) :
    ∀ plen off, b ≤ off →
    fsReadLoop files offs plen off =
      (((flatBytes files).drop (off - b)).take plen ++
         List.replicate (plen - ((flatBytes files).length - (off - b))) 0,
       min plen ((flatBytes files).length - (off - b)),
       true) := by
  induction hwf with
  | nil b =>
    intro plen off hle
    simp [fsReadLoop, flatBytes]
  | cons fe files' offs' base hlen hrest ih =>
    intro plen off hle
    have hflat : flatBytes (fe :: files') = fe.contents ++ flatBytes files' := by
      simp [flatBytes]
    rcases Nat.eq_zero_or_pos plen with hp0 | hppos
    · subst hp0
      rw [fsReadLoop_zero]
      simp
    · have hpne : ¬ plen = 0 := by omega
      rw [show fsReadLoop (fe :: files') (base :: offs') plen off =
        (if plen = 0 then ([], 0, true)
         else
           if off - base < fe.length then
             if (feReadAt fe (min plen (fe.length - (off - base))) (off - base)).2.2 then
               ((feReadAt fe (min plen (fe.length - (off - base))) (off - base)).1 ++
                  (fsReadLoop files' offs'
                    (plen - (feReadAt fe (min plen (fe.length - (off - base))) (off - base)).2.1)
                    (off + (feReadAt fe (min plen (fe.length - (off - base))) (off - base)).2.1)).1,
                (feReadAt fe (min plen (fe.length - (off - base))) (off - base)).2.1 +
                  (fsReadLoop files' offs'
                    (plen - (feReadAt fe (min plen (fe.length - (off - base))) (off - base)).2.1)
                    (off + (feReadAt fe (min plen (fe.length - (off - base))) (off - base)).2.1)).2.1,
                (fsReadLoop files' offs'
                  (plen - (feReadAt fe (min plen (fe.length - (off - base))) (off - base)).2.1)
                  (off + (feReadAt fe (min plen (fe.length - (off - base))) (off - base)).2.1)).2.2)
             else ((feReadAt fe (min plen (fe.length - (off - base))) (off - base)).1,
                   (feReadAt fe (min plen (fe.length - (off - base))) (off - base)).2.1, false)
           else fsReadLoop files' offs' plen off) from rfl]
      rw [if_neg hpne]
      set rel := off - base with hreldef
      by_cases hrel : rel < fe.length
      · rw [if_pos hrel]
        have hbytes : (feReadAt fe (min plen (fe.length - rel)) rel).1 =
            (fe.contents.drop rel).take (min plen (fe.length - rel)) := rfl
        have hn : (feReadAt fe (min plen (fe.length - rel)) rel).2.1 =
            min plen (fe.length - rel) := by
          simp only [feReadAt, List.length_take, List.length_drop, hlen]
          omega
        have hok : (feReadAt fe (min plen (fe.length - rel)) rel).2.2 = true := by
          simp only [feReadAt, hlen]
          simp only [decide_eq_true_eq]
          omega
        rw [hok, if_pos rfl, hn, hbytes]
        set chunk := min plen (fe.length - rel) with hchunkdef
        have hchunk : chunk ≤ fe.length - rel := Nat.min_le_right _ _
        have hlendrop : (fe.contents.drop rel).length = fe.length - rel := by
          simp [hlen]
        by_cases hcase : fe.length - rel ≤ plen
        · -- the entry is exhausted; recurse into the rest
          have hchunkeq : chunk = fe.length - rel := by omega
          have hrec := ih (plen - chunk) (off + chunk) (by omega)
          have hnewrel : off + chunk - (base + fe.length) = 0 := by omega
          rw [hrec, hnewrel]
          simp only [Nat.sub_zero, List.drop_zero]
          have htake : (fe.contents.drop rel).take chunk = fe.contents.drop rel := by
            apply List.take_of_length_le
            omega
          simp only [Prod.mk.injEq]
          refine ⟨?_, ?_, trivial⟩
          · rw [htake, hflat, List.drop_append_eq_append_drop,
              show rel - fe.contents.length = 0 by omega, List.drop_zero,
              List.take_append_eq_append_take,
              List.take_of_length_le (by omega : (fe.contents.drop rel).length ≤ plen),
              hlendrop,
              show plen - (fe.length - rel) = plen - chunk by omega,
              show plen - ((fe.contents ++ flatBytes files').length - rel) =
                plen - chunk - (flatBytes files').length by
                  simp only [List.length_append, hlen]; omega,
              List.append_assoc]
          · rw [hflat]
            simp only [List.length_append, hlen]
            omega
        · -- the request ends inside this entry
          have hchunkeq : chunk = plen := by omega
          rw [show plen - chunk = 0 by omega, fsReadLoop_zero]
          simp only [List.append_nil, Nat.add_zero]
          simp only [Prod.mk.injEq]
          refine ⟨?_, ?_, trivial⟩
          · rw [hflat, List.drop_append_eq_append_drop,
              show rel - fe.contents.length = 0 by omega, List.drop_zero,
              List.take_append_eq_append_take, hlendrop,
              show plen - (fe.length - rel) = 0 by omega,
              show plen - ((fe.contents ++ flatBytes files').length - rel) = 0 by
                simp only [List.length_append, hlen]; omega]
            simp [hchunkeq]
          · rw [hflat]
            simp only [List.length_append, hlen]
            omega
      · -- this entry is skipped
        rw [if_neg hrel]
        have hrec := ih plen off (by omega)
        rw [hrec, hflat]
        have hd : off - (base + fe.length) = rel - fe.length := by omega
        rw [hd]
        have hdrop : (fe.contents ++ flatBytes files').drop rel =
            (flatBytes files').drop (rel - fe.length) := by
          rw [List.drop_append_eq_append_drop]
          have hnil : fe.contents.drop rel = [] := by
            apply List.drop_eq_nil_of_le
            omega
          rw [hnil, hlen]
          simp
        rw [hdrop]
        have hlen2 : (fe.contents ++ flatBytes files').length - rel =
            (flatBytes files').length - (rel - fe.length) := by
          simp [hlen]
          omega
        rw [hlen2]

theorem zeroCheck_spec (p : List Nat) :
    (zeroCheck p).2 = p.all (fun x => decide (x = 0)) ∧
    ((zeroCheck p).2 = true → (zeroCheck p).1 = p.length) := by
  have aux : ∀ (l : List Nat) (i : Nat),
      l.findIdx? (fun b => decide (b ≠ 0)) i = none ↔
        l.all (fun x => decide (x = 0)) = true := by
    intro l
    induction l with
    | nil => intro i; simp
    | cons a t ih =>
      intro i
      rw [List.findIdx?_cons]
      by_cases ha : a = 0
      · simp only [ha]
        simp [ih (i + 1)]
      · simp [ha]
  rcases hf : p.findIdx? (fun b => decide (b ≠ 0)) 0 with _ | j
  · have hall := (aux p 0).mp hf
    have hzc : zeroCheck p = (p.length, true) := by
      unfold zeroCheck
      rw [hf]
    rw [hzc]
    simp [hall]
  · have hnall : p.all (fun x => decide (x = 0)) = false := by
      cases hv : p.all (fun x => decide (x = 0))
      · rfl
      · rw [← aux p 0, hf] at hv
        exact absurd hv (Option.some_ne_none j)
    have hzc : zeroCheck p = (j, false) := by
      unfold zeroCheck
      rw [hf]
    rw [hzc]
    simp [hnall]

theorem fsWriteLoop_eq {files : List FileEntryM} {offs : List Nat} {b : Nat}
    (hwf : WfSuffix files offs b) :
    ∀ p off, b ≤ off →
    WfSuffix (fsWriteLoop files offs p off).1 offs b ∧
    (fsWriteLoop files offs p off).1.map FileEntryM.name = files.map FileEntryM.name ∧
    (fsWriteLoop files offs p off).1.map FileEntryM.length = files.map FileEntryM.length ∧
    flatBytes (fsWriteLoop files offs p off).1 =
      (flatBytes files).take (off - b) ++ p.take ((flatBytes files).length - (off - b)) ++
        (flatBytes files).drop ((off - b) + p.length) ∧
    (fsWriteLoop files offs p off).2.2 =
      (p.drop ((flatBytes files).length - (off - b))).all (fun x => decide (x = 0)) ∧
    ((fsWriteLoop files offs p off).2.2 = true →
      (fsWriteLoop files offs p off).2.1 = p.length) := by
  induction hwf with
  | nil b =>
    intro p off hle
    have hzc := zeroCheck_spec p
    refine ⟨WfSuffix.nil b, rfl, rfl, by simp [flatBytes, fsWriteLoop], ?_, ?_⟩
    · show (zeroCheck p).2 = _
      rw [hzc.1]
      simp [flatBytes]
    · exact hzc.2
  | cons fe files' offs' base hlen hrest ih =>
    intro p off hle
    have hflat : flatBytes (fe :: files') = fe.contents ++ flatBytes files' := by
      simp [flatBytes]
    have hflen : (flatBytes (fe :: files')).length =
        fe.length + (flatBytes files').length := by
      rw [hflat]
      simp [hlen]
    rcases Nat.eq_zero_or_pos p.length with hp0 | hppos
    · have hpnil : p = [] := List.length_eq_zero.mp hp0
      subst hpnil
      rw [fsWriteLoop_nil]
      refine ⟨WfSuffix.cons fe files' offs' base hlen hrest, rfl, rfl, ?_, by simp, by simp⟩
      simp
    · have hpne : ¬ p.length = 0 := by omega
      rw [show fsWriteLoop (fe :: files') (base :: offs') p off =
        (if p.length = 0 then (fe :: files', 0, true)
         else
           if off - base < fe.length then
             (feWriteAt fe (p.take (min p.length (fe.length - (off - base)))) (off - base) ::
                (fsWriteLoop files' offs' (p.drop (min p.length (fe.length - (off - base))))
                  (off + min p.length (fe.length - (off - base)))).1,
              min p.length (fe.length - (off - base)) +
                (fsWriteLoop files' offs' (p.drop (min p.length (fe.length - (off - base))))
                  (off + min p.length (fe.length - (off - base)))).2.1,
              (fsWriteLoop files' offs' (p.drop (min p.length (fe.length - (off - base))))
                (off + min p.length (fe.length - (off - base)))).2.2)
           else
             (fe :: (fsWriteLoop files' offs' p off).1,
              (fsWriteLoop files' offs' p off).2.1,
              (fsWriteLoop files' offs' p off).2.2)) from rfl]
      rw [if_neg hpne]
      set rel := off - base with hreldef
      by_cases hrel : rel < fe.length
      · rw [if_pos hrel]
        set chunk := min p.length (fe.length - rel) with hchunkdef
        have hchunk1 : chunk ≤ fe.length - rel := Nat.min_le_right _ _
        have hchunk2 : chunk ≤ p.length := Nat.min_le_left _ _
        have hqlen : (p.take chunk).length = chunk := by
          simp
          omega
        have hcontents : (feWriteAt fe (p.take chunk) rel).contents =
            fe.contents.take rel ++ p.take chunk ++ fe.contents.drop (rel + chunk) := by
          simp only [feWriteAt, hlen, hqlen]
          rw [show rel - fe.length = 0 by omega]
          simp
        have hclen : (feWriteAt fe (p.take chunk) rel).contents.length = fe.length := by
          rw [hcontents]
          simp [hlen]
          omega
        have hname : (feWriteAt fe (p.take chunk) rel).name = fe.name := rfl
        have hlength : (feWriteAt fe (p.take chunk) rel).length = fe.length := rfl
        by_cases hcase : fe.length - rel ≤ p.length
        · -- entry exhausted, recursion moves to the next entry
          have hchunkeq : chunk = fe.length - rel := by omega
          obtain ⟨ihwf, ihname, ihlen, ihflat, ihok, ihn⟩ :=
            ih (p.drop chunk) (off + chunk) (by omega)
          have hnewrel : off + chunk - (base + fe.length) = 0 := by omega
          rw [hnewrel] at ihflat ihok
          simp only [Nat.sub_zero, List.take_zero, List.nil_append, List.drop_zero,
            List.length_drop, Nat.zero_add] at ihflat ihok
          refine ⟨?_, ?_, ?_, ?_, ?_, ?_⟩
          · refine WfSuffix.cons _ _ _ _ (hclen.trans hlength.symm) ?_
            rw [hlength]
            exact ihwf
          · simp [hname, ihname]
          · simp [hlength, ihlen]
          · show flatBytes (_ :: _) = _
            rw [show flatBytes ((feWriteAt fe (p.take chunk) rel) ::
                (fsWriteLoop files' offs' (p.drop chunk) (off + chunk)).1) =
              (feWriteAt fe (p.take chunk) rel).contents ++
                flatBytes (fsWriteLoop files' offs' (p.drop chunk) (off + chunk)).1 from by
              simp [flatBytes]]
            rw [hcontents, ihflat, hflat]
            rw [show fe.contents.drop (rel + chunk) = [] from by
              apply List.drop_eq_nil_of_le
              omega]
            rw [List.take_append_eq_append_take,
              show rel - fe.contents.length = 0 by omega, List.take_zero,
              List.drop_append_eq_append_drop,
              show fe.contents.drop (rel + p.length) = [] from by
                apply List.drop_eq_nil_of_le
                omega,
              show rel + p.length - fe.contents.length = p.length - chunk from by
                rw [hlen]; omega,
              show (fe.contents ++ flatBytes files').length - rel =
                chunk + (flatBytes files').length from by
                  simp only [List.length_append, hlen]; omega,
              List.take_add]
            simp only [List.append_nil, List.nil_append, List.append_assoc]
          · rw [ihok, List.drop_drop, hflen,
              show fe.length + (flatBytes files').length - rel =
                chunk + (flatBytes files').length from by omega]
          · intro hok
            rw [ihn hok]
            simp only [List.length_drop]
            omega
        · -- the write ends inside this entry
          have hchunkeq : chunk = p.length := by omega
          have hdropnil : p.drop chunk = [] := by
            apply List.drop_eq_nil_of_le
            omega
          rw [hdropnil, fsWriteLoop_nil]
          refine ⟨?_, ?_, ?_, ?_, ?_, ?_⟩
          · refine WfSuffix.cons _ _ _ _ (hclen.trans hlength.symm) ?_
            rw [hlength]
            exact hrest
          · simp [hname]
          · simp [hlength]
          · show flatBytes (_ :: files') = _
            rw [show flatBytes ((feWriteAt fe (p.take chunk) rel) :: files') =
              (feWriteAt fe (p.take chunk) rel).contents ++ flatBytes files' from by
              simp [flatBytes]]
            rw [hcontents, hflat]
            rw [List.take_append_eq_append_take,
              show rel - fe.contents.length = 0 by omega, List.take_zero,
              List.drop_append_eq_append_drop,
              show rel + p.length - fe.contents.length = 0 from by rw [hlen]; omega,
              List.drop_zero,
              show p.take ((fe.contents ++ flatBytes files').length - rel) = p from by
                apply List.take_of_length_le
                simp only [List.length_append, hlen]
                omega,
              show p.take chunk = p from by rw [hchunkeq]; simp,
              hchunkeq]
            simp only [List.append_nil, List.nil_append, List.append_assoc]
          · rw [show (p.drop ((flatBytes (fe :: files')).length - rel)) = [] from by
              apply List.drop_eq_nil_of_le
              rw [hflen]
              omega]
            simp
          · intro _
            simp [hchunkeq]
      · -- entry skipped
        rw [if_neg hrel]
        obtain ⟨ihwf, ihname, ihlen, ihflat, ihok, ihn⟩ := ih p off (by omega)
        refine ⟨?_, ?_, ?_, ?_, ?_, ?_⟩
        · exact WfSuffix.cons _ _ _ _ hlen ihwf
        · simp [ihname]
        · simp [ihlen]
        · show flatBytes (fe :: _) = _
          rw [show flatBytes (fe :: (fsWriteLoop files' offs' p off).1) =
            fe.contents ++ flatBytes (fsWriteLoop files' offs' p off).1 from by
            simp [flatBytes]]
          rw [ihflat, hflat]
          rw [List.take_append_eq_append_take,
            show fe.contents.take rel = fe.contents from by
              apply List.take_of_length_le
              omega,
            List.drop_append_eq_append_drop,
            show fe.contents.drop (rel + p.length) = [] from by
              apply List.drop_eq_nil_of_le
              omega,
            show rel - fe.contents.length = off - (base + fe.length) from by
              rw [hlen]; omega,
            show rel + p.length - fe.contents.length =
              off - (base + fe.length) + p.length from by rw [hlen]; omega,
            show (fe.contents ++ flatBytes files').length - rel =
              (flatBytes files').length - (off - (base + fe.length)) from by
              simp only [List.length_append, hlen]; omega]
          simp only [List.nil_append, List.append_assoc]
        · rw [ihok, hflen,
            show fe.length + (flatBytes files').length - rel =
              (flatBytes files').length - (off - (base + fe.length)) from by omega]
        · exact ihn

theorem wfs_drop {files : List FileEntryM} {offs : List Nat} {b : Nat}
    (h : WfSuffix files offs b) :
    ∀ i, i < offs.length → WfSuffix (files.drop i) (offs.drop i) (offs.getD i 0) := by
  induction h with
  | nil b => intro i hi; simp at hi
  | cons fe files' offs' base hlen hrest ih =>
    intro i hi
    cases i with
    | zero =>
      simpa using WfSuffix.cons fe files' offs' base hlen hrest
    | succ j =>
      simp only [List.drop_succ_cons, List.getD_cons_succ]
      exact ih j (by simpa using hi)

theorem wfs_base_le {files : List FileEntryM} {offs : List Nat} {b : Nat}
    (h : WfSuffix files offs b) :
    ∀ i, i < offs.length → b ≤ offs.getD i 0 := by
  induction h with
  | nil b => intro i hi; simp at hi
  | cons fe files' offs' base hlen hrest ih =>
    intro i hi
    cases i with
    | zero => simp
    | succ j =>
      simp only [List.getD_cons_succ]
      have := ih j (by simpa using hi)
      omega

theorem wfs_sum_drop {files : List FileEntryM} {offs : List Nat} {b : Nat}
    (h : WfSuffix files offs b) :
    ∀ i, i < offs.length →
      offs.getD i 0 + ((files.drop i).map FileEntryM.length).sum =
        b + (files.map FileEntryM.length).sum := by
  induction h with
  | nil b => intro i hi; simp at hi
  | cons fe files' offs' base hlen hrest ih =>
    intro i hi
    cases i with
    | zero => simp
    | succ j =>
      simp only [List.drop_succ_cons, List.getD_cons_succ, List.map_cons, List.sum_cons]
      have := ih j (by simpa using hi)
      omega

theorem wfs_take_flat_length {files : List FileEntryM} {offs : List Nat} {b : Nat}
    (h : WfSuffix files offs b) :
    ∀ i, i < offs.length → (flatBytes (files.take i)).length = offs.getD i 0 - b := by
  induction h with
  | nil b => intro i hi; simp at hi
  | cons fe files' offs' base hlen hrest ih =>
    intro i hi
    cases i with
    | zero => simp [flatBytes]
    | succ j =>
      simp only [List.take_succ_cons, List.getD_cons_succ]
      have hflat : flatBytes (fe :: files'.take j) =
          fe.contents ++ flatBytes (files'.take j) := by simp [flatBytes]
      have hj := ih j (by simpa using hi)
      have hbase := wfs_base_le hrest j (by simpa using hi)
      rw [hflat]
      simp only [List.length_append, hlen, hj]
      omega

theorem wfs_head_eq {files : List FileEntryM} {offs : List Nat} {b : Nat}
    (h : WfSuffix files offs b) : offs = [] ∨ offs.getD 0 0 = b := by
  cases h with
  | nil => exact Or.inl rfl
  | cons fe files' offs' base hlen hrest => exact Or.inr (by simp)

theorem flatBytes_take_drop (files : List FileEntryM) (i : Nat) :
    flatBytes files = flatBytes (files.take i) ++ flatBytes (files.drop i) := by
  unfold flatBytes
  rw [← List.flatten_append, ← List.map_append, List.take_append_drop]

theorem find_suffix (fs : FileStoreM) (hwf : WfStore fs) (off : Nat) :
    ∃ b, WfSuffix (fs.files.drop (fsFind fs off)) (fs.offsets.drop (fsFind fs off)) b ∧
      b ≤ off ∧
      (flatBytes (fs.files.drop (fsFind fs off))).length = storeTotal fs - b ∧
      flatBytes (fs.files.take (fsFind fs off)) = (flatBytes fs.files).take b := by
  rcases Nat.eq_zero_or_pos fs.offsets.length with hn0 | hnpos
  · have hoffs : fs.offsets = [] := List.length_eq_zero.mp hn0
    have hfiles : fs.files = [] := by
      have := wfs_length hwf
      rw [hoffs] at this
      exact List.length_eq_zero.mp (by simpa using this)
    have hfind : fsFind fs off = 0 := by
      simp [fsFind, hoffs, goSearch, goSearchAux]
    refine ⟨off, ?_, le_refl off, ?_, ?_⟩
    · rw [hfind, hoffs, hfiles]
      exact WfSuffix.nil off
    · rw [hfind, hfiles]
      simp [flatBytes, storeTotal, hfiles]
    · rw [hfind, hfiles]
      simp [flatBytes]
  · obtain ⟨hile, hitrue, himin⟩ := goSearch_spec fs.offsets.length
      (fun i => if fs.offsets.length - 1 ≤ i then true else off ≤ fs.offsets.getD (i + 1) 0)
    set i := fsFind fs off with hidef
    have hieq : i = goSearch fs.offsets.length
        (fun i => if fs.offsets.length - 1 ≤ i then true else off ≤ fs.offsets.getD (i + 1) 0) :=
      rfl
    have hin : i < fs.offsets.length := by
      rcases Nat.lt_or_ge (goSearch fs.offsets.length
        (fun i => if fs.offsets.length - 1 ≤ i then true
          else off ≤ fs.offsets.getD (i + 1) 0)) fs.offsets.length with h | h
      · rw [hieq]; exact h
      · exfalso
        have hmm := himin (fs.offsets.length - 1) (by omega)
        simp at hmm
    have hble : fs.offsets.getD i 0 ≤ off := by
      cases hi0 : i with
      | zero =>
        have h0 : fs.offsets.getD 0 0 = 0 := by
          rcases wfs_head_eq hwf with hnil | h
          · rw [hnil] at hnpos
            simp at hnpos
          · exact h
        rw [h0]
        omega
      | succ j =>
        have hf := himin j (by omega)
        have hj1 : ¬ (fs.offsets.length - 1 ≤ j) := by
          intro hcon
          rw [if_pos hcon] at hf
          simp at hf
        rw [if_neg hj1] at hf
        simp only [decide_eq_false_iff_not, not_le] at hf
        rw [hi0] at hidef
        omega
    refine ⟨fs.offsets.getD i 0, wfs_drop hwf i hin, hble, ?_, ?_⟩
    · rw [wfs_flat_length (wfs_drop hwf i hin)]
      have := wfs_sum_drop hwf i hin
      unfold storeTotal
      omega
    · have hlen := wfs_take_flat_length hwf i hin
      rw [flatBytes_take_drop fs.files i, List.take_append_eq_append_take]
      rw [Nat.sub_zero] at hlen
      rw [show fs.offsets.getD i 0 - (flatBytes (fs.files.take i)).length = 0 from by omega,
        List.take_zero, List.append_nil]
      exact (List.take_of_length_le (by omega)).symm

/-- C3: writing a byte sequence entirely inside the store and reading the
same range back returns exactly the bytes written (with a full count and
no error on either call). -/
theorem C3_write_read_roundtrip (fs : FileStoreM) (hwf : WfStore fs) (B : List Nat) (o : Nat)
    (hrange : o + B.length ≤ storeTotal fs) :
    (fsWriteAt fs B o).2.1 = B.length ∧
    (fsWriteAt fs B o).2.2 = true ∧
    fsReadAt (fsWriteAt fs B o).1 B.length o = (B, B.length, true) := by
  obtain ⟨b, hwfs, hble, hflen, htake⟩ := find_suffix fs hwf o
  have hilen : fsFind fs o ≤ fs.files.length := by
    have h1 := (goSearch_spec fs.offsets.length
      (fun i => if fs.offsets.length - 1 ≤ i then true
        else o ≤ fs.offsets.getD (i + 1) 0)).1
    have h2 : fs.files.length = fs.offsets.length := wfs_length hwf
    have h3 : fsFind fs o = goSearch fs.offsets.length
      (fun i => if fs.offsets.length - 1 ≤ i then true
        else o ≤ fs.offsets.getD (i + 1) 0) := rfl
    omega
  obtain ⟨hwf', hname, hlens, hflatW, hok, hn⟩ :=
    fsWriteLoop_eq hwfs B o hble
  set i := fsFind fs o with hidef
  set W := fsWriteLoop (fs.files.drop i) (fs.offsets.drop i) B o with hWdef
  have hrem : (flatBytes (fs.files.drop i)).length - (o - b) = storeTotal fs - o := by
    omega
  have hremnil : B.drop ((flatBytes (fs.files.drop i)).length - (o - b)) = [] := by
    apply List.drop_eq_nil_of_le
    omega
  have hokT : W.2.2 = true := by
    rw [hok, hremnil]
    rfl
  have hnT : W.2.1 = B.length := hn hokT
  have hwr : fsWriteAt fs B o =
      (⟨fs.offsets, fs.files.take i ++ W.1⟩, W.2.1, W.2.2) := rfl
  refine ⟨by rw [hwr]; exact hnT, by rw [hwr]; exact hokT, ?_⟩
  rw [hwr]
  have hBtake : B.take ((flatBytes (fs.files.drop i)).length - (o - b)) = B := by
    apply List.take_of_length_le
    omega
  rw [hBtake] at hflatW
  have hflatWlen : (flatBytes W.1).length = (flatBytes (fs.files.drop i)).length := by
    rw [hflatW]
    simp only [List.length_append, List.length_take, List.length_drop]
    omega
  have hfind' : fsFind ⟨fs.offsets, fs.files.take i ++ W.1⟩ o = i := rfl
  have htklen : (fs.files.take i).length = i := by
    simp
    omega
  have hdropW : (fs.files.take i ++ W.1).drop i = W.1 := by
    rw [List.drop_append_eq_append_drop, htklen]
    simp
  have hread : fsReadAt ⟨fs.offsets, fs.files.take i ++ W.1⟩ B.length o =
      fsReadLoop W.1 (fs.offsets.drop i) B.length o := by
    show fsReadLoop
        ((fs.files.take i ++ W.1).drop (fsFind ⟨fs.offsets, fs.files.take i ++ W.1⟩ o))
        (fs.offsets.drop (fsFind ⟨fs.offsets, fs.files.take i ++ W.1⟩ o)) B.length o =
      fsReadLoop W.1 (fs.offsets.drop i) B.length o
    rw [hfind', hdropW]
  rw [hread, fsReadLoop_eq hwf' B.length o hble]
  have hTlen : ((flatBytes (fs.files.drop i)).take (o - b)).length = o - b := by
    simp only [List.length_take]
    omega
  have hdropflat : (flatBytes W.1).drop (o - b) =
      B ++ (flatBytes (fs.files.drop i)).drop ((o - b) + B.length) := by
    rw [hflatW, List.append_assoc, List.drop_append_eq_append_drop, hTlen,
      List.drop_eq_nil_of_le (le_of_eq hTlen), Nat.sub_self, List.drop_zero,
      List.nil_append]
  simp only [Prod.mk.injEq]
  refine ⟨?_, ?_, trivial⟩
  · rw [hdropflat, List.take_append_eq_append_take, List.take_length, Nat.sub_self,
      List.take_zero, List.append_nil,
      show B.length - ((flatBytes W.1).length - (o - b)) = 0 from by
        rw [hflatWlen]; omega]
    simp
  · rw [hflatWlen]
    omega

theorem flatBytes_append (a c : List FileEntryM) :
    flatBytes (a ++ c) = flatBytes a ++ flatBytes c := by
  simp [flatBytes]

theorem all_drop_zero_iff (p : List Nat) (k : Nat) :
    (p.drop k).all (fun x => decide (x = 0)) = true ↔
      ∀ j, j < p.length → k ≤ j → p.getD j 0 = 0 := by
  rw [List.all_eq_true]
  constructor
  · intro hall j hj hkj
    have hget : p.getD j 0 = p[j] := List.getD_eq_getElem p 0 hj
    rw [hget]
    have hjk : j - k < (p.drop k).length := by
      simp
      omega
    have : (p.drop k)[j - k] = p[j] := by
      rw [List.getElem_drop]
      congr 1
      omega
    rw [← this]
    have hmem : (p.drop k)[j - k] ∈ p.drop k := List.getElem_mem hjk
    simpa using hall _ hmem
  · intro h x hx
    obtain ⟨j, hj, hjx⟩ := List.mem_iff_getElem.mp hx
    have hjlen : k + j < p.length := by
      simp at hj
      omega
    rw [List.getElem_drop] at hjx
    have := h (k + j) hjlen (by omega)
    rw [List.getD_eq_getElem p 0 hjlen] at this
    simp [← hjx, this]

/-- C4: a write whose range extends past the end of the store succeeds
exactly when every byte landing beyond `totalSize` is zero; on success the
returned count includes the discarded tail, and in all cases the store
keeps only the in-range prefix of the data (nothing exists beyond
`totalSize` to modify). -/
theorem C4_write_past_end (fs : FileStoreM) (hwf : WfStore fs) (p : List Nat) (o : Nat)
    (hpast : storeTotal fs < o + p.length) :
    ((fsWriteAt fs p o).2.2 = true ↔
      ∀ j, j < p.length → storeTotal fs ≤ o + j → p.getD j 0 = 0) ∧
    ((fsWriteAt fs p o).2.2 = true → (fsWriteAt fs p o).2.1 = p.length) ∧
    flatBytes (fsWriteAt fs p o).1.files =
      (flatBytes fs.files).take o ++ p.take (storeTotal fs - o) := by
  obtain ⟨b, hwfs, hble, hflen, htake⟩ := find_suffix fs hwf o
  obtain ⟨hwf', hname, hlens, hflatW, hok, hn⟩ := fsWriteLoop_eq hwfs p o hble
  set i := fsFind fs o with hidef
  set W := fsWriteLoop (fs.files.drop i) (fs.offsets.drop i) p o with hWdef
  have hrem : (flatBytes (fs.files.drop i)).length - (o - b) = storeTotal fs - o := by
    omega
  have hwr : fsWriteAt fs p o =
      (⟨fs.offsets, fs.files.take i ++ W.1⟩, W.2.1, W.2.2) := rfl
  refine ⟨?_, ?_, ?_⟩
  · rw [hwr]
    show W.2.2 = true ↔ _
    rw [hok, hrem, all_drop_zero_iff]
    constructor
    · intro h j hj hoj
      exact h j hj (by omega)
    · intro h j hj hoj
      exact h j hj (by omega)
  · rw [hwr]
    exact hn
  · rw [hwr]
    show flatBytes (fs.files.take i ++ W.1) = _
    have hflatdrop : flatBytes (fs.files.drop i) = (flatBytes fs.files).drop b := by
      have h := flatBytes_take_drop fs.files i
      rw [htake] at h
      have h2 : (flatBytes fs.files).take b ++ (flatBytes fs.files).drop b =
          flatBytes fs.files := List.take_append_drop b _
      have h3 : (flatBytes fs.files).take b ++ flatBytes (fs.files.drop i) =
          (flatBytes fs.files).take b ++ (flatBytes fs.files).drop b :=
        h.symm.trans h2.symm
      exact List.append_cancel_left h3
    have htot : (flatBytes fs.files).length = storeTotal fs := by
      have := wfs_flat_length hwf
      unfold storeTotal
      omega
    rw [flatBytes_append, hflatW, htake, hrem, hflatdrop]
    rw [show ((flatBytes fs.files).drop b).drop ((o - b) + p.length) = [] from by
        apply List.drop_eq_nil_of_le
        simp only [List.length_drop]
        omega,
      List.append_nil, ← List.append_assoc, ← List.take_add,
      show b + (o - b) = o from by omega]

theorem wfs_offs_sum {files : List FileEntryM} {offs : List Nat} {b : Nat}
    (h : WfSuffix files offs b) :
    ∀ k, k < offs.length →
      offs.getD k 0 = b + ((files.take k).map FileEntryM.length).sum := by
  induction h with
  | nil b => intro k hk; simp at hk
  | cons fe files' offs' base hlen hrest ih =>
    intro k hk
    cases k with
    | zero => simp
    | succ j =>
      simp only [List.getD_cons_succ, List.take_succ_cons, List.map_cons, List.sum_cons]
      have := ih j (by simpa using hk)
      omega

theorem sum_take_succ (files : List FileEntryM) (k : Nat) (hk : k < files.length) :
    ((files.take (k + 1)).map FileEntryM.length).sum =
      ((files.take k).map FileEntryM.length).sum + (files.getD k default).length := by
  rw [List.take_succ]
  have : files[k]?.toList = [files.getD k default] := by
    rw [List.getElem?_eq_getElem hk, List.getD_eq_getElem files default hk]
    rfl
  rw [this]
  simp

theorem sum_take_mono (files : List FileEntryM) (k m : Nat) (hkm : k ≤ m) :
    ((files.take k).map FileEntryM.length).sum ≤
      ((files.take m).map FileEntryM.length).sum := by
  have hsplit : files.take m = (files.take m).take k ++ (files.take m).drop k :=
    (List.take_append_drop k (files.take m)).symm
  rw [List.take_take, Nat.min_eq_left hkm] at hsplit
  calc ((files.take k).map FileEntryM.length).sum
      ≤ ((files.take k).map FileEntryM.length).sum +
          (((files.take m).drop k).map FileEntryM.length).sum := by omega
    _ = ((files.take m).map FileEntryM.length).sum := by
        conv_rhs => rw [hsplit]
        simp

theorem wfs_entry_contents {files : List FileEntryM} {offs : List Nat} {b : Nat}
    (h : WfSuffix files offs b) :
    ∀ j, j < files.length →
      (files.getD j default).contents.length = (files.getD j default).length := by
  induction h with
  | nil b => intro j hj; simp at hj
  | cons fe files' offs' base hlen hrest ih =>
    intro j hj
    cases j with
    | zero => simpa using hlen
    | succ m =>
      simp only [List.getD_cons_succ]
      exact ih m (by simpa using hj)

theorem feSetPart_isPart (fe : FileEntryM) : isPartName (feSetPart fe).name = true := by
  unfold feSetPart
  by_cases hp : isPartName fe.name
  · rw [if_pos hp]
    exact hp
  · rw [if_neg hp]
    show isPartName (fe.name ++ gs ".part") = true
    unfold isPartName
    have h5 : (gs ".part").length = 5 := by decide
    have hdrop : (fe.name ++ gs ".part").drop ((fe.name ++ gs ".part").length - 5) =
        gs ".part" := by
      rw [List.length_append, h5, show fe.name.length + 5 - 5 = fe.name.length by omega]
      exact List.drop_left fe.name (gs ".part")
    rw [hdrop]
    simp [List.length_append, h5]

theorem feSetPart_preserves (fe : FileEntryM) (hc : fe.contents.length = fe.length) :
    (feSetPart fe).contents = fe.contents ∧ (feSetPart fe).length = fe.length := by
  unfold feSetPart
  by_cases hp : isPartName fe.name
  · rw [if_pos hp]
    exact ⟨rfl, rfl⟩
  · rw [if_neg hp]
    refine ⟨?_, rfl⟩
    show fe.contents.take fe.length ++ List.replicate (fe.length - fe.contents.length) 0 =
      fe.contents
    rw [List.take_of_length_le (le_of_eq hc), hc]
    simp

theorem fsFind_lt_iff (fs : FileStoreM) (hwf : WfStore fs) (fromOff : Nat)
    (hlt : fromOff < storeTotal fs) (j : Nat) (hj : j < fs.files.length) :
    j < fsFind fs fromOff ↔
      fs.offsets.getD j 0 + (fs.files.getD j default).length < fromOff := by
  have hn : fs.files.length = fs.offsets.length := wfs_length hwf
  have hnpos : 0 < fs.offsets.length := by omega
  obtain ⟨hile, hitrue, himin⟩ := goSearch_spec fs.offsets.length
    (fun i => if fs.offsets.length - 1 ≤ i then true
      else fromOff ≤ fs.offsets.getD (i + 1) 0)
  have hieq : fsFind fs fromOff = goSearch fs.offsets.length
      (fun i => if fs.offsets.length - 1 ≤ i then true
        else fromOff ≤ fs.offsets.getD (i + 1) 0) := rfl
  have hend : ∀ k, k < fs.files.length →
      fs.offsets.getD k 0 + (fs.files.getD k default).length =
        ((fs.files.take (k + 1)).map FileEntryM.length).sum := by
    intro k hk
    rw [wfs_offs_sum hwf k (by omega), sum_take_succ fs.files k hk]
    omega
  have htotal : storeTotal fs = ((fs.files.take fs.files.length).map FileEntryM.length).sum := by
    rw [List.take_of_length_le (le_refl _)]
    rfl
  have hin : fsFind fs fromOff < fs.offsets.length := by
    rcases Nat.lt_or_ge (goSearch fs.offsets.length
      (fun i => if fs.offsets.length - 1 ≤ i then true
        else fromOff ≤ fs.offsets.getD (i + 1) 0)) fs.offsets.length with h | h
    · rw [hieq]; exact h
    · exfalso
      have hmm := himin (fs.offsets.length - 1) (by omega)
      simp at hmm
  constructor
  · intro hji
    have hf := himin j (by rw [hieq] at hji; omega)
    have hj1 : ¬ (fs.offsets.length - 1 ≤ j) := by
      intro hcon
      rw [if_pos hcon] at hf
      simp at hf
    rw [if_neg hj1] at hf
    simp only [decide_eq_false_iff_not, not_le] at hf
    have hadj : fs.offsets.getD (j + 1) 0 =
        fs.offsets.getD j 0 + (fs.files.getD j default).length := by
      rw [hend j hj, wfs_offs_sum hwf (j + 1) (by omega)]
      omega
    omega
  · intro hendlt
    by_contra hji
    push_neg at hji
    have hftrue := hitrue (by rw [← hieq]; exact hin)
    rw [← hieq] at hftrue
    by_cases hlastc : fs.offsets.length - 1 ≤ fsFind fs fromOff
    · have hjeq : j = fs.files.length - 1 := by omega
      have hjt : fs.offsets.getD j 0 + (fs.files.getD j default).length = storeTotal fs := by
        rw [hend j hj, htotal, hjeq,
          show fs.files.length - 1 + 1 = fs.files.length from by omega]
      omega
    · rw [if_neg hlastc] at hftrue
      simp only [decide_eq_true_eq] at hftrue
      have hfj : fs.offsets.getD (fsFind fs fromOff + 1) 0 =
          ((fs.files.take (fsFind fs fromOff + 1)).map FileEntryM.length).sum := by
        rw [wfs_offs_sum hwf (fsFind fs fromOff + 1) (by omega)]
        omega
      have hmono := sum_take_mono fs.files (fsFind fs fromOff + 1) (j + 1) (by omega)
      have hej := hend j hj
      omega

/-- C9, amended: `SetBad(fromOffset)` stages exactly the entries whose end
offset is at least `fromOffset` — every entry ending strictly before
`fromOffset` is untouched, and every other entry ends up with a `.part`
name, its declared length and its contents intact. -/
theorem C9_setBad_amended (fs : FileStoreM) (hwf : WfStore fs) (fromOff : Nat)
    (hlt : fromOff < storeTotal fs) (j : Nat) (hj : j < fs.files.length) :
    (fs.offsets.getD j 0 + (fs.files.getD j default).length < fromOff →
      (fsSetBad fs fromOff).files.getD j default = fs.files.getD j default) ∧
    (fromOff ≤ fs.offsets.getD j 0 + (fs.files.getD j default).length →
      isPartName ((fsSetBad fs fromOff).files.getD j default).name = true ∧
      ((fsSetBad fs fromOff).files.getD j default).contents =
        (fs.files.getD j default).contents ∧
      ((fsSetBad fs fromOff).files.getD j default).length =
        (fs.files.getD j default).length) := by
  have hn : fs.files.length = fs.offsets.length := wfs_length hwf
  have hkey := fsFind_lt_iff fs hwf fromOff hlt j hj
  have hsb : (fsSetBad fs fromOff).files =
      fs.files.take (fsFind fs fromOff) ++
        (fs.files.drop (fsFind fs fromOff)).map feSetPart := rfl
  have hile : fsFind fs fromOff ≤ fs.offsets.length :=
    (goSearch_spec fs.offsets.length _).1
  constructor
  · intro hendlt
    have hji : j < fsFind fs fromOff := hkey.mpr hendlt
    rw [hsb]
    have hjtk : j < (fs.files.take (fsFind fs fromOff)).length := by
      simp
      omega
    rw [List.getD_append _ _ default j hjtk]
    rw [List.getD_eq_getElem _ default hjtk, List.getElem_take,
      ← List.getD_eq_getElem fs.files default hj]
  · intro hendge
    have hji : fsFind fs fromOff ≤ j := by
      by_contra hcon
      push_neg at hcon
      have := hkey.mp hcon
      omega
    have hjtk : (fs.files.take (fsFind fs fromOff)).length = fsFind fs fromOff := by
      simp
      omega
    have hjd : j - fsFind fs fromOff < (fs.files.drop (fsFind fs fromOff)).length := by
      simp
      omega
    have hsetj : (fsSetBad fs fromOff).files.getD j default =
        feSetPart (fs.files.getD j default) := by
      rw [hsb, List.getD_append_right _ _ default j (by omega :
          (fs.files.take (fsFind fs fromOff)).length ≤ j), hjtk]
      rw [List.getD_eq_getElem _ default (by simpa using hjd), List.getElem_map,
        List.getElem_drop,
        ← List.getD_eq_getElem fs.files default (by omega :
          fsFind fs fromOff + (j - fsFind fs fromOff) < fs.files.length),
        show fsFind fs fromOff + (j - fsFind fs fromOff) = j from by omega]
    obtain ⟨hcpres, hlpres⟩ := feSetPart_preserves (fs.files.getD j default)
      (wfs_entry_contents hwf j hj)
    rw [hsetj]
    exact ⟨feSetPart_isPart _, hcpres, hlpres⟩

theorem demoStore_wf : WfStore demoStore :=
  WfSuffix.cons _ _ _ _ (by decide)
    (WfSuffix.cons _ _ _ _ (by decide) (WfSuffix.nil _))

/-- C3 witness: the round trip on the concrete two-file store, writing
"ABCDEFGH" over the whole range. -/
theorem C3_witness :
    (fsWriteAt demoStore (gs "ABCDEFGH") 0).2.1 = (gs "ABCDEFGH").length ∧
    (fsWriteAt demoStore (gs "ABCDEFGH") 0).2.2 = true ∧
    fsReadAt (fsWriteAt demoStore (gs "ABCDEFGH") 0).1 (gs "ABCDEFGH").length 0 =
      (gs "ABCDEFGH", (gs "ABCDEFGH").length, true) :=
  C3_write_read_roundtrip demoStore demoStore_wf (gs "ABCDEFGH") 0 (by decide)

/-- C4 witness: writing "XY" plus two zero bytes at offset 6 of the
8-byte store. -/
theorem C4_witness :
    ((fsWriteAt demoStore (gs "XY" ++ [0, 0]) 6).2.2 = true ↔
      ∀ j, j < (gs "XY" ++ [0, 0]).length → storeTotal demoStore ≤ 6 + j →
        (gs "XY" ++ [0, 0]).getD j 0 = 0) ∧
    ((fsWriteAt demoStore (gs "XY" ++ [0, 0]) 6).2.2 = true →
      (fsWriteAt demoStore (gs "XY" ++ [0, 0]) 6).2.1 = (gs "XY" ++ [0, 0]).length) ∧
    flatBytes (fsWriteAt demoStore (gs "XY" ++ [0, 0]) 6).1.files =
      (flatBytes demoStore.files).take 6 ++
        (gs "XY" ++ [0, 0]).take (storeTotal demoStore - 6) :=
  C4_write_past_end demoStore demoStore_wf (gs "XY" ++ [0, 0]) 6 (by decide)

/-- C9, counterexample to the claim as stated: in the two-file store with
lengths 3 and 5, `SetBad(3)` also stages the first entry, which ends
exactly at offset 3 — offset 3 itself lies in the second entry, and the
claim says an entry ending at the bad offset is left unchanged. -/
theorem C9_counterexample :
    3 < storeTotal demoStore ∧
    demoStore.offsets.getD 0 0 + (demoStore.files.getD 0 default).length = 3 ∧
    ((fsSetBad demoStore 3).files.getD 0 default).name = gs "x.part" ∧
    (fsSetBad demoStore 3).files.getD 0 default ≠ demoStore.files.getD 0 default := by
  refine ⟨by decide, by decide, by decide, ?_⟩
  decide

/-- C9 witness: the amended theorem applied to the two-file store with
`SetBad(4)`, at the untouched first entry and the staged second entry. -/
theorem C9_witness :
    ((demoStore.offsets.getD 0 0 + (demoStore.files.getD 0 default).length < 4 →
      (fsSetBad demoStore 4).files.getD 0 default = demoStore.files.getD 0 default) ∧
     (4 ≤ demoStore.offsets.getD 0 0 + (demoStore.files.getD 0 default).length →
      isPartName ((fsSetBad demoStore 4).files.getD 0 default).name = true ∧
      ((fsSetBad demoStore 4).files.getD 0 default).contents =
        (demoStore.files.getD 0 default).contents ∧
      ((fsSetBad demoStore 4).files.getD 0 default).length =
        (demoStore.files.getD 0 default).length)) ∧
    ((demoStore.offsets.getD 1 0 + (demoStore.files.getD 1 default).length < 4 →
      (fsSetBad demoStore 4).files.getD 1 default = demoStore.files.getD 1 default) ∧
     (4 ≤ demoStore.offsets.getD 1 0 + (demoStore.files.getD 1 default).length →
      isPartName ((fsSetBad demoStore 4).files.getD 1 default).name = true ∧
      ((fsSetBad demoStore 4).files.getD 1 default).contents =
        (demoStore.files.getD 1 default).contents ∧
      ((fsSetBad demoStore 4).files.getD 1 default).length =
        (demoStore.files.getD 1 default).length)) :=
  ⟨C9_setBad_amended demoStore demoStore_wf 4 (by decide) 0 (by decide),
   C9_setBad_amended demoStore demoStore_wf 4 (by decide) 1 (by decide)⟩

/-! ### C7, C10: file-store construction -/

/-- C7, counterexample to the claim as stated: with name "r", files
`[3:x, 5:d/y]` and root "/tmp/t", construction does not create
"/tmp/t/r/x" (or its .part form) — in multi-file mode `NewFileStore`
joins the store root with `src.Path` only and never consults `Name`. -/
theorem C7_counterexample :
    fsLookup (newFileStore demoInfo (gs "/tmp/t") []).2.2 (gs "/tmp/t/r/x") = none ∧
    fsLookup (newFileStore demoInfo (gs "/tmp/t") []).2.2 (gs "/tmp/t/r/x.part") = none ∧
    fsLookup (newFileStore demoInfo (gs "/tmp/t") []).2.2 (gs "/tmp/t/r/d/y") = none ∧
    fsLookup (newFileStore demoInfo (gs "/tmp/t") []).2.2 (gs "/tmp/t/r/d/y.part") = none ∧
    ((newFileStore demoInfo (gs "/tmp/t") []).1.files.getD 0 default).name ≠
      gs "/tmp/t/r/x" ∧
    ((newFileStore demoInfo (gs "/tmp/t") []).1.files.getD 0 default).name ≠
      gs "/tmp/t/r/x.part" := by
  refine ⟨by decide, by decide, by decide, by decide, by decide, by decide⟩

/-- C7, amended: the same construction creates "/tmp/t/x" (here in its
fresh ".part" form, truncated to 3 zero bytes) and "/tmp/t/d/y.part" of
size 5 — the name directory is not part of the backing paths — and the
returned total size is 8 with offsets [0, 3]. -/
theorem C7_layout_amended :
    (newFileStore demoInfo (gs "/tmp/t") []).2.1 = 8 ∧
    (newFileStore demoInfo (gs "/tmp/t") []).1.files.map FileEntryM.name =
      [gs "/tmp/t/x.part", gs "/tmp/t/d/y.part"] ∧
    (newFileStore demoInfo (gs "/tmp/t") []).1.files.map FileEntryM.length = [3, 5] ∧
    (newFileStore demoInfo (gs "/tmp/t") []).1.offsets = [0, 3] ∧
    fsLookup (newFileStore demoInfo (gs "/tmp/t") []).2.2 (gs "/tmp/t/x.part") =
      some (List.replicate 3 0) ∧
    fsLookup (newFileStore demoInfo (gs "/tmp/t") []).2.2 (gs "/tmp/t/d/y.part") =
      some (List.replicate 5 0) := by
  refine ⟨by decide, by decide, by decide, by decide, by decide, by decide⟩

theorem fsLookup_remove_self (m : FsMap) (p : List Nat) :
    fsLookup (fsRemove m p) p = none := by
  induction m with
  | nil => rfl
  | cons e rest ih =>
    by_cases he : e.1 = p
    · simp only [fsRemove, List.filter_cons]
      rw [show (decide (e.1 ≠ p)) = false from by simp [he]]
      simp only [Bool.false_eq_true, if_false]
      exact ih
    · simp only [fsRemove, List.filter_cons]
      rw [show (decide (e.1 ≠ p)) = true from by simp [he]]
      simp only [if_true]
      show fsLookup (e :: fsRemove rest p) p = none
      unfold fsLookup
      rw [List.find?_cons_of_neg _ (by simp [he])]
      exact ih

theorem fsLookup_remove_other (m : FsMap) (p q : List Nat) (h : q ≠ p) :
    fsLookup (fsRemove m p) q = fsLookup m q := by
  induction m with
  | nil => rfl
  | cons e rest ih =>
    by_cases he : e.1 = p
    · simp only [fsRemove, List.filter_cons]
      rw [show (decide (e.1 ≠ p)) = false from by simp [he]]
      simp only [Bool.false_eq_true, if_false]
      have h2 : fsLookup (e :: rest) q = fsLookup rest q := by
        unfold fsLookup
        rw [List.find?_cons_of_neg _ (by
          simp only [decide_eq_true_eq]
          rw [he]
          exact fun hh => h hh.symm)]
      rw [h2]
      exact ih
    · simp only [fsRemove, List.filter_cons]
      rw [show (decide (e.1 ≠ p)) = true from by simp [he]]
      simp only [if_true]
      show fsLookup (e :: fsRemove rest p) q = fsLookup (e :: rest) q
      unfold fsLookup
      by_cases heq : e.1 = q
      · rw [List.find?_cons_of_pos _ (by simp [heq]),
          List.find?_cons_of_pos _ (by simp [heq])]
      · rw [List.find?_cons_of_neg _ (by simp [heq]),
          List.find?_cons_of_neg _ (by simp [heq])]
        exact ih

theorem fsLookup_insert_self (m : FsMap) (p c : List Nat) :
    fsLookup (fsInsert m p c) p = some c := by
  unfold fsInsert fsLookup
  rw [List.find?_cons_of_pos _ (by simp)]

theorem fsLookup_insert_other (m : FsMap) (p c q : List Nat) (h : q ≠ p) :
    fsLookup (fsInsert m p c) q = fsLookup (fsRemove m p) q := by
  unfold fsInsert fsLookup
  rw [List.find?_cons_of_neg _ (by
    simp only [decide_eq_true_eq]
    exact fun hh => h hh.symm)]

/-- C10: opening a file entry first removes any pre-existing `name.part`
(whether or not the final file exists), and any `.part` file it then
creates is zero-truncated to the declared length; so after `open`, if
`name.part` exists at all it holds exactly `length` zero bytes, and a
staged entry's backing file and in-memory contents are all-zero. -/
theorem C10_part_file_fresh (m : FsMap) (name : List Nat) (length : Nat) :
    (∀ c, fsLookup (feOpen m name length).1 (name ++ gs ".part") = some c →
      c = List.replicate length 0) ∧
    ((feOpen m name length).2.name = name ∨
      (fsLookup (feOpen m name length).1 (feOpen m name length).2.name =
        some (List.replicate length 0) ∧
       (feOpen m name length).2.contents = List.replicate length 0)) := by
  have hm1lookup : fsLookup
      (if (fsLookup m (name ++ gs ".part")).isSome
        then fsRemove m (name ++ gs ".part") else m)
      (name ++ gs ".part") = none := by
    by_cases hp : (fsLookup m (name ++ gs ".part")).isSome
    · rw [if_pos hp]
      exact fsLookup_remove_self m _
    · rw [if_neg hp]
      exact Option.not_isSome_iff_eq_none.mp hp
  set m1 := if (fsLookup m (name ++ gs ".part")).isSome
    then fsRemove m (name ++ gs ".part") else m with hm1
  set ntR := (match fsLookup m1 name with
    | none => true
    | some c => decide (c.length ≠ length)) with hntR
  set rawname := delFirst name (goExt name) with hraw
  set rawname2 := (if 60 < rawname.length then rawname.take 60 ++ gs "[...]"
    else rawname) with hraw2
  set partname2 := rawname2 ++ goExt name ++ gs ".part" with hpn2
  have hopen : feOpen m name length =
      if ntR then
        (fsInsert m1 partname2 (List.replicate length 0),
         ⟨length, partname2, List.replicate length 0⟩)
      else (m1, ⟨length, name, (fsLookup m1 name).getD []⟩) := rfl
  by_cases hr : ntR = true
  · rw [hopen, if_pos hr]
    constructor
    · intro c hc
      by_cases heq : name ++ gs ".part" = partname2
      · rw [heq, fsLookup_insert_self] at hc
        exact (Option.some_inj.mp hc).symm
      · rw [fsLookup_insert_other m1 partname2 (List.replicate length 0)
            (name ++ gs ".part") heq,
          fsLookup_remove_other m1 partname2 (name ++ gs ".part") heq,
          hm1lookup] at hc
        exact absurd hc (by simp)
    · exact Or.inr ⟨fsLookup_insert_self m1 partname2 _, rfl⟩
  · rw [hopen, if_neg hr]
    constructor
    · intro c hc
      have : (none : Option (List Nat)) = some c := hm1lookup.symm.trans hc
      exact absurd this (by simp)
    · exact Or.inl rfl

/-- C10 witness: a pre-existing "f.part" holding junk bytes, no final
file; after opening "f" with length 2 the only possible contents of
"f.part" are two zero bytes, as the theorem instance shows. -/
theorem C10_witness :
    fsLookup (feOpen [(gs "f.part", [9, 9])] (gs "f") 2).1 (gs "f" ++ gs ".part") =
      some [0, 0] ∧
    [0, 0] = List.replicate 2 0 :=
  ⟨by decide,
   (C10_part_file_fresh [(gs "f.part", [9, 9])] (gs "f") 2).1 [0, 0] (by decide)⟩
theorem sha1_length (msg : List Nat) : (sha1 msg).length = 20 := by
  simp only [sha1]
  generalize (chunks64 ((sha1Pad msg).length + 1) (sha1Pad msg)).foldl sha1Chunk
      (0x67452301, 0xEFCDAB89, 0x98BADCFE, 0x10325476, 0xC3D2E1F0) = t
  obtain ⟨h0, h1, h2, h3, h4⟩ := t
  simp [wordBytes]

/-- C8 counterexample: `badTorrent` has no `piece length` key and a
`pieces` string of 21 bytes (not a multiple of 20), yet
`NewMetaInfoFromContent` accepts it (the decoder fills in the zero value
for the missing key and validates nothing), contradicting the claim that
such inputs yield a parse error. -/
theorem C8_counterexample :
    (newMetaInfoFromContent badTorrent).toOption.isSome = true ∧
    ((newMetaInfoFromContent badTorrent).toOption.bind (fun m => m.info)).map
      (fun i => (i.pieceLength, i.pieces.length % 20)) = some (0, 1) := by
  decide

/-- C8 amended: `NewMetaInfoFromContent` fails when the raw bytes are
malformed bencode (the struct decode is the only validation); on success
with `info` present the info-hash is the 20-byte SHA-1 of the re-encoded
info dictionary; missing `piece length` or a `pieces` string that is not
a multiple of 20 bytes are NOT rejected.  The well-formed scenario-1
descriptor parses successfully. -/
theorem C8_parse_amended :
    (∀ content, (parseBenc content).isNone = true →
      newMetaInfoFromContent content = .error ()) ∧
    (∀ content m, newMetaInfoFromContent content = .ok m →
      ∀ i, m.info = some i →
        m.infoHash = sha1 (encodeInfoDict i) ∧ m.infoHash.length = 20) ∧
    (newMetaInfoFromContent sc1content).toOption.isSome = true := by
  refine ⟨?_, ?_, by decide⟩
  · intro content h
    rw [Option.isNone_iff_eq_none] at h
    unfold newMetaInfoFromContent
    rw [h]
  · intro content m hm i hi
    unfold newMetaInfoFromContent at hm
    rcases hp : parseBenc content with _ | ⟨b, rest⟩
    · rw [hp] at hm
      exact absurd hm (by simp)
    · simp only [hp] at hm
      rcases hd : decodeMetaInfo b with _ | m0
      · rw [hd] at hm
        exact absurd hm (by simp)
      · simp only [hd] at hm
        rcases hio : m0.info with _ | i0
        · simp only [hio] at hm
          injection hm with h2
          subst h2
          have hii : m0.info = some i := hi
          rw [hio] at hii
          exact absurd hii (by simp)
        · simp only [hio] at hm
          injection hm with h2
          subst h2
          have hii : some i0 = some i := hi
          obtain rfl : i0 = i := Option.some_inj.mp hii
          exact ⟨rfl, sha1_length (encodeInfoDict i0)⟩

/-- C8 witness: the three raw bytes "xyz" are malformed bencode, and the
amended theorem's first part yields the parse error on them. -/
theorem C8_witness :
    (parseBenc (gs "xyz")).isNone = true ∧
    newMetaInfoFromContent (gs "xyz") = .error () :=
  ⟨by decide, C8_parse_amended.1 (gs "xyz") (by decide)⟩
